import Mathlib

/-!
# calc-image-size: blob collection over a container registry

A shallow embedding of `main.go`.  The program is a consumer of the
go-containerregistry client (`name`, `crane`, `v1`); that client is not part of
the repository, so every operation of it that `main.go` calls is a field of a
record below and the theorems hold for every value of those records.

* Go's `map[string]int64` is an association list with pairwise distinct keys
  (`GoMap`); `m[k] = v` is `GoMap.set`.
* Go leaves the order in which `range` visits a map unspecified: `order m` is the
  order in which the entries of `m` are visited, and the theorems hold for every
  `order` that returns a permutation of its argument.
* `int64` values are integers; `total += size` wraps modulo `2^64` (`wrap64`).
* A digest (`v1.Hash`) has an algorithm and a hex part, and the table is keyed by the hex
  part.  The client hands over only digests that its parser accepts, with the number of
  hex digits that the algorithm fixes (`Hash.Parsed`).
* What the program does to the outside world is recorded as a list of events:
  the calls it makes to the registry client, the `slog.Info` records and the
  lines written to standard output.
-/

namespace CalcImageSize

/-! ## Go values -/

/-- A Go `error` value, identified with its message. -/
abbrev Error := String

/-- The range of `int64` is `[-2^63, 2^63)`; `wrap64 x` is the `int64` that Go
computes for the exact integer result `x` of an addition. -/
def wrap64 (x : Int) : Int := (x + 2 ^ 63) % 2 ^ 64 - 2 ^ 63

/-- The predicate: `x` is representable as an `int64`. -/
def IsInt64 (x : Int) : Prop := -(2 ^ 63) ≤ x ∧ x < 2 ^ 63

instance (x : Int) : Decidable (IsInt64 x) := by unfold IsInt64; infer_instance

/-- Go's `map[string]int64`: the entries, with pairwise distinct keys. -/
abbrev GoMap := List (String × Int)

namespace GoMap

/-- Keys of the map. -/
def keys (m : GoMap) : List String := m.map Prod.fst

/-- Read `m[k]`; `none` when the key is absent. -/
def get? : GoMap → String → Option Int
  | [], _ => none
  | (k', v') :: rest, k => if k' = k then some v' else get? rest k

/-- The assignment `m[k] = v`: overwrite the entry of `k`, or add one. -/
def set : GoMap → String → Int → GoMap
  | [], k, v => [(k, v)]
  | (k', v') :: rest, k, v => if k' = k then (k', v) :: rest else (k', v') :: set rest k v

/-- Exact sum of the values of the map. -/
def sum (m : GoMap) : Int := (m.map Prod.snd).sum

end GoMap

/-- `maps.Insert(dst, maps.All(src))`: range over `src` and assign every entry in `dst`. -/
def mapsInsert (order : GoMap → GoMap) (dst src : GoMap) : GoMap :=
  (order src).foldl (fun m kv => m.set kv.1 kv.2) dst

/-! ## The registry client, as `main.go` uses it -/

/-- `v1.Hash`: a digest, `Algorithm:Hex`. -/
structure Hash where
  Algorithm : String
  Hex : String
deriving DecidableEq, Repr

/-- `v1.Layer`, with the two methods that are called. -/
structure Layer where
  Digest : Except Error Hash
  Size : Except Error Int

/-- `v1.Image`, with the methods that are called. -/
structure Image where
  Digest : Except Error Hash
  Size : Except Error Int
  Layers : Except Error (List Layer)

/-- `v1.Descriptor`: one child entry of an index manifest. -/
structure Descriptor where
  MediaType : String
  Size : Int
  Digest : Hash
  Platform : String
deriving DecidableEq, Repr

/-- `v1.IndexManifest`. -/
structure IndexManifest where
  Manifests : List Descriptor

/-- `v1.ImageIndex`, with the methods that are called. -/
structure ImageIndex where
  Digest : Except Error Hash
  Size : Except Error Int
  IndexManifest : Except Error IndexManifest
  Image : Hash → Except Error Image

/-- `remote.Descriptor`, the value returned by `crane.Get`. -/
structure RemoteDescriptor where
  MediaType : String
  ImageIndex : Except Error ImageIndex
  Image : Except Error Image

/-- `name.Reference`: `Identifier()` is the tag or digest (empty when the name has
neither, because of `name.WithDefaultTag("")`), `str` is `String()`, the name as it was
given. -/
structure Reference where
  Identifier : String
  str : String

/-- The registry client: `name.ParseReference(·, name.WithDefaultTag(""))`,
`crane.ListTags` and `crane.Get`. -/
structure Registry where
  ParseReference : String → Except Error Reference
  ListTags : String → Except Error (List String)
  Get : String → Except Error RemoteDescriptor

/-! ## Events and outcomes -/

/-- A line written to standard output: `fmt.Println(blob, size)` writes
`<blob> <size>`, `fmt.Println("total:", total)` writes `total: <total>`. -/
inductive Line where
  | blob (hex : String) (size : Int)
  | total (n : Int)
deriving DecidableEq, Repr

/-- What the program does to the outside world. -/
inductive Event where
  | parseReference (imageName : String)
  | listTags (name : String)
  | get (name : String)
  | indexImage (digest : Hash)
  | slogInfo (msg : String) (attrs : List (String × String))
  | println (line : Line)
deriving DecidableEq, Repr

/-- Outcome of a function: the events it caused, in order, and what it returned. -/
structure Out (α : Type) where
  events : List Event
  result : Except Error α

/-- The lines written to standard output. -/
def stdout (es : List Event) : List Line :=
  es.filterMap (fun e => match e with
    | .println l => some l
    | _ => none)

/-- The names passed to `crane.Get`, in call order. -/
def walked (es : List Event) : List String :=
  es.filterMap (fun e => match e with
    | .get n => some n
    | _ => none)

/-- The digests passed to `index.Image`, in call order. -/
def childFetches (es : List Event) : List Hash :=
  es.filterMap (fun e => match e with
    | .indexImage h => some h
    | _ => none)

/-! ## `main.go` -/

/-- The loop over `imageLayers` in `getBlobsByImage` (lines 166-176). -/
def layersLoop : List Layer → GoMap → Except Error GoMap
  | [], blobs => .ok blobs
  | blob :: rest, blobs =>
    match blob.Digest with
    | .error err => .error err
    | .ok digest =>
      match blob.Size with
      | .error err => .error err
      | .ok size => layersLoop rest (blobs.set digest.Hex size)

/-- The function `getBlobsByImage` (lines 141-179).  The call `image.RawManifest()` of line 145
discards both of its results. -/
def getBlobsByImage (image : Image) : Except Error GoMap :=
  match image.Digest with
  | .error err => .error err
  | .ok imageManifestDigest =>
    match image.Size with
    | .error err => .error err
    | .ok sizeManifestSize =>
      match image.Layers with
      | .error err => .error err
      | .ok imageLayers =>
        layersLoop imageLayers (GoMap.set [] imageManifestDigest.Hex sizeManifestSize)

/-- The two events of one iteration of the loop over the index manifest. -/
def childEvents (name : String) (ref : Descriptor) : List Event :=
  [.slogInfo "get blobs from image"
      [("name", name), ("platform", ref.Platform), ("media", ref.MediaType)],
   .indexImage ref.Digest]

/-- The loop over `indexManifest.Manifests` in `getBlobsByImageTag` (lines 118-129). -/
def indexLoop (order : GoMap → GoMap) (index : ImageIndex) (name : String) :
    List Descriptor → GoMap → Out GoMap
  | [], allBlobs => ⟨[], .ok allBlobs⟩
  | ref :: rest, allBlobs =>
    match index.Image ref.Digest with
    | .error err => ⟨childEvents name ref, .error err⟩
    | .ok img =>
      match getBlobsByImage img with
      | .error err => ⟨childEvents name ref, .error err⟩
      | .ok blobs =>
        let r := indexLoop order index name rest (mapsInsert order allBlobs blobs)
        ⟨childEvents name ref ++ r.events, r.result⟩

/-- The function `getBlobsByImageTag` (lines 86-139). -/
def getBlobsByImageTag (order : GoMap → GoMap) (W : Registry) (name : String) : Out GoMap :=
  match W.Get name with
  | .error err => ⟨[.get name], .error err⟩
  | .ok ref =>
    match ref.ImageIndex with
    | .ok index =>
      match index.Digest with
      | .error err => ⟨[.get name], .error err⟩
      | .ok indexDigest =>
        match index.Size with
        | .error err => ⟨[.get name], .error err⟩
        | .ok indexSize =>
          match index.IndexManifest with
          | .error err =>
            ⟨[.get name, .slogInfo "get images from image index" [("name", name)]], .error err⟩
          | .ok indexManifest =>
            let r := indexLoop order index name indexManifest.Manifests
              (GoMap.set [] indexDigest.Hex indexSize)
            ⟨[.get name, .slogInfo "get images from image index" [("name", name)]] ++ r.events,
              r.result⟩
    | .error _ =>
      match ref.Image with
      | .ok image =>
        ⟨[.get name, .slogInfo "get blobs from image" [("name", name)]], getBlobsByImage image⟩
      | .error _ =>
        ⟨[.get name],
          .error ("manifest is not image and image index but '" ++ ref.MediaType ++ "'")⟩

/-- The loop over `tags` in `getBlobsByNameForAllTags` (lines 73-80). -/
def tagsLoop (order : GoMap → GoMap) (W : Registry) (name : String) :
    List String → GoMap → Out GoMap
  | [], allBlobs => ⟨[], .ok allBlobs⟩
  | tag :: rest, allBlobs =>
    let r := getBlobsByImageTag order W (name ++ ":" ++ tag)
    match r.result with
    | .error err => ⟨r.events, .error err⟩
    | .ok blobs =>
      let r' := tagsLoop order W name rest (mapsInsert order allBlobs blobs)
      ⟨r.events ++ r'.events, r'.result⟩

/-- The function `getBlobsByNameForAllTags` (lines 65-83). -/
def getBlobsByNameForAllTags (order : GoMap → GoMap) (W : Registry) (name : String) :
    Out GoMap :=
  match W.ListTags name with
  | .error _ => ⟨[.listTags name], .error ("failed to get tags for '" ++ name ++ "'")⟩
  | .ok tags =>
    let r := tagsLoop order W name tags []
    ⟨.listTags name :: r.events, r.result⟩

/-- Body of the loop of `run` up to the merge (lines 30-51): the table of one image name. -/
def runBody (order : GoMap → GoMap) (W : Registry) (imageName : String) : Out GoMap :=
  match W.ParseReference imageName with
  | .error err => ⟨[.parseReference imageName], .error err⟩
  | .ok ref =>
    if ref.Identifier = "" then
      let r := getBlobsByNameForAllTags order W imageName
      ⟨.parseReference imageName :: r.events, r.result⟩
    else
      let r := getBlobsByImageTag order W ref.str
      ⟨.parseReference imageName :: r.events, r.result⟩

/-- The loop over `imageNames` in `run` (lines 29-53). -/
def runLoop (order : GoMap → GoMap) (W : Registry) : List String → GoMap → Out GoMap
  | [], allBlobs => ⟨[], .ok allBlobs⟩
  | imageName :: rest, allBlobs =>
    let r := runBody order W imageName
    match r.result with
    | .error err => ⟨r.events, .error err⟩
    | .ok blobs =>
      let r' := runLoop order W rest (mapsInsert order allBlobs blobs)
      ⟨r.events ++ r'.events, r'.result⟩

/-- The loop that prints the table (lines 55-59): the lines written and the final `total`. -/
def printLoop : List (String × Int) → Int → List Line × Int
  | [], total => ([], total)
  | (blob, size) :: rest, total =>
    let r := printLoop rest (wrap64 (total + size))
    (.blob blob size :: r.1, r.2)

/-- The function `run` (lines 22-62); `imageNames` is `flag.Args()`. -/
def run (order : GoMap → GoMap) (W : Registry) (imageNames : List String) : Out Unit :=
  let r := runLoop order W imageNames []
  match r.result with
  | .error err => ⟨r.events, .error err⟩
  | .ok allBlobs =>
    let p := printLoop (order allBlobs) 0
    ⟨r.events ++ p.1.map Event.println ++ [.println (.total p.2)], .ok ()⟩

/-! ## What the registry reports -/

/-- The order in which `range` visits a map is a permutation of its entries. -/
def PermOrder (order : GoMap → GoMap) : Prop := ∀ m, (order m).Perm m

/-- What the reads of one image report: digest and size of its manifest, and
digest and size of every layer, in manifest order. -/
structure ImageData where
  digest : Hash
  size : Int
  layers : List (Hash × Int)

/-- Both reads of the layer succeed and report `p`. -/
def Layer.Reads (l : Layer) (p : Hash × Int) : Prop :=
  l.Digest = .ok p.1 ∧ l.Size = .ok p.2

/-- Every read of the image succeeds and reports `d`. -/
def Image.Reads (image : Image) (d : ImageData) : Prop :=
  image.Digest = .ok d.digest ∧ image.Size = .ok d.size ∧
    ∃ ls, image.Layers = .ok ls ∧ List.Forall₂ Layer.Reads ls d.layers

/-- The blobs of an image: its manifest, then its layers. -/
def ImageData.blobs (d : ImageData) : List (Hash × Int) :=
  (d.digest, d.size) :: d.layers

/-- What the reads of one index report: digest and size of its manifest, and for every
child entry of the index manifest what the image fetched for it reports. -/
structure IndexData where
  digest : Hash
  size : Int
  children : List (Descriptor × ImageData)

/-- Every read of the index succeeds and reports `d`. -/
def ImageIndex.Reads (index : ImageIndex) (d : IndexData) : Prop :=
  index.Digest = .ok d.digest ∧ index.Size = .ok d.size ∧
    (∃ im, index.IndexManifest = .ok im ∧ im.Manifests = d.children.map Prod.fst) ∧
    ∀ c ∈ d.children, ∃ img, index.Image c.1.Digest = .ok img ∧ img.Reads c.2

/-- The blobs of an index: its own manifest, then the blobs of every child in order. -/
def IndexData.blobs (d : IndexData) : List (Hash × Int) :=
  (d.digest, d.size) :: d.children.flatMap (fun c => c.2.blobs)

/-- Total number of layers over all children of an index. -/
def IndexData.layerCount (d : IndexData) : Nat :=
  (d.children.map (fun c => c.2.layers.length)).sum

/-- The table entry of a blob: the key is the hex part of the digest. -/
def entry (p : Hash × Int) : String × Int := (p.1.Hex, p.2)

/-- The table `T` holds the blobs `L`: its keys are pairwise distinct, they are the keys
of `L`, and every value is a size that `L` gives for the key. -/
def Tabulates (T : GoMap) (L : List (String × Int)) : Prop :=
  T.keys.Nodup ∧ (∀ k, k ∈ T.keys ↔ k ∈ L.map Prod.fst) ∧
    ∀ k v, T.get? k = some v → (k, v) ∈ L

/-- Blobs with equal keys have equal sizes. -/
def Consistent (L : List (String × Int)) : Prop :=
  ∀ p ∈ L, ∀ q ∈ L, p.1 = q.1 → p.2 = q.2

/-- What a successful walk of one reference reads: an index or a single image. -/
inductive ManifestData where
  | index (d : IndexData)
  | image (d : ImageData)

/-- The blobs met while walking the reference. -/
def ManifestData.blobs : ManifestData → List (Hash × Int)
  | .index d => d.blobs
  | .image d => d.blobs

/-- The value returned by `crane.Get` is an index, or else an image, all of whose reads
succeed and report `r`. -/
def RemoteDescriptor.Reads (ref : RemoteDescriptor) : ManifestData → Prop
  | .index d => ∃ index, ref.ImageIndex = .ok index ∧ index.Reads d
  | .image d =>
    (∃ e, ref.ImageIndex = .error e) ∧ ∃ image, ref.Image = .ok image ∧ image.Reads d

/-- The client's `v1.Hash` parser accepts a digest only when its hex part has the number
of digits that the algorithm fixes; `digits` is the client's table of algorithms (`none`
for an algorithm it does not support).  Every digest that the client hands to `main.go`
went through that parser or was computed by the client with one of these algorithms. -/
def Hash.Parsed (digits : String → Option Nat) (h : Hash) : Prop :=
  digits h.Algorithm = some h.Hex.length

instance (digits : String → Option Nat) (h : Hash) : Decidable (h.Parsed digits) := by
  unfold Hash.Parsed; infer_instance

/-- No two algorithms of the client's table have the same number of hex digits. -/
def DigitsDistinct (digits : String → Option Nat) : Prop :=
  ∀ a b n, digits a = some n → digits b = some n → a = b

/-! ## Concrete registries -/

/-- A `sha256` digest. -/
def sha (hex : String) : Hash := ⟨"sha256", hex⟩

/-- An image all of whose reads succeed and report `d`. -/
def mkImage (d : ImageData) : Image :=
  ⟨.ok d.digest, .ok d.size, .ok (d.layers.map (fun p => ⟨.ok p.1, .ok p.2⟩))⟩

/-- An index all of whose reads succeed and report `d`; `Image` returns the image of the
first child entry with the digest asked for. -/
def mkIndex (d : IndexData) : ImageIndex :=
  ⟨.ok d.digest, .ok d.size, .ok ⟨d.children.map Prod.fst⟩,
    fun h => match d.children.find? (fun c => c.1.Digest = h) with
      | some c => .ok (mkImage c.2)
      | none => .error "manifest unknown"⟩

/-- Media type of an OCI image manifest. -/
def ociManifest : String := "application/vnd.oci.image.manifest.v1+json"

/-- Media type of an OCI image index. -/
def ociIndex : String := "application/vnd.oci.image.index.v1+json"

/-- What `crane.Get` returns for a single image. -/
def imageDescriptor (d : ImageData) : RemoteDescriptor :=
  ⟨ociManifest, .error "unexpected media type for ImageIndex()", .ok (mkImage d)⟩

/-- What `crane.Get` returns for an index. -/
def indexDescriptor (index : ImageIndex) : RemoteDescriptor :=
  ⟨ociIndex, .ok index, .error "no child with platform linux/amd64 in index"⟩

/-- The image of the `busybox` scenario: manifest `aaa` of 1234 bytes, one layer `bbb`. -/
def busyboxImage : ImageData := ⟨sha "aaa", 1234, [(sha "bbb", 700000)]⟩

/-- An image that shares the layer `bbb` with `busybox`. -/
def appImage : ImageData := ⟨sha "ccc", 900, [(sha "bbb", 700000), (sha "ddd", 4096)]⟩

/-- The two platform images of `myindex:v1`. -/
def amd64Image : ImageData := ⟨sha "2222", 400, [(sha "4444", 1000)]⟩

/-- The second platform image of `myindex:v1`. -/
def arm64Image : ImageData := ⟨sha "3333", 410, [(sha "5555", 2000)]⟩

/-- The index of the `myindex:v1` scenario: two platform children with one layer each. -/
def myindex : IndexData :=
  ⟨sha "1111", 500,
    [(⟨ociManifest, 400, sha "2222", "linux/amd64"⟩, amd64Image),
     (⟨ociManifest, 410, sha "3333", "linux/arm64"⟩, arm64Image)]⟩

/-- An index whose manifest list is empty. -/
def emptyIndex : IndexData := ⟨sha "eeee", 120, []⟩

/-- An image whose two layers are 2^62 bytes each. -/
def bigImage : ImageData :=
  ⟨sha "f000", 1234, [(sha "f001", 4611686018427387904), (sha "f002", 4611686018427387904)]⟩

/-- An image that lists the layer `bbb` of `busybox` with another size. -/
def oddImage : ImageData := ⟨sha "eee", 800, [(sha "bbb", 5)]⟩

/-- A hex part of 64 digits: `s`, padded with zeros. -/
def hex64 (s : String) : String := s ++ String.mk (List.replicate (64 - s.length) '0')

/-- A `sha256` digest as the client parses it, with 64 hex digits. -/
def sha64 (s : String) : Hash := ⟨"sha256", hex64 s⟩

/-- The numbers of hex digits of the client's hash parser: 64 for `sha256`, 128 for
`sha512`. -/
def clientDigits (algorithm : String) : Option Nat :=
  if algorithm = "sha256" then some 64
  else if algorithm = "sha512" then some 128
  else none

/-- An index with two platform children of one layer each, with digests of 64 hex
digits. -/
def wideIndex : IndexData :=
  ⟨sha64 "d0", 500,
    [(⟨ociManifest, 400, sha64 "d1", "linux/amd64"⟩,
        ⟨sha64 "d1", 400, [(sha64 "d3", 1000)]⟩),
     (⟨ociManifest, 410, sha64 "d2", "linux/arm64"⟩,
        ⟨sha64 "d2", 410, [(sha64 "d4", 2000)]⟩)]⟩

/-- An index with two children of one layer of 2^62 bytes each; the five digests have 64
hex digits and are pairwise distinct. -/
def bigIndex : IndexData :=
  ⟨sha64 "c0", 500,
    [(⟨ociManifest, 400, sha64 "c1", "linux/amd64"⟩,
        ⟨sha64 "c1", 400, [(sha64 "c3", 4611686018427387904)]⟩),
     (⟨ociManifest, 410, sha64 "c2", "linux/arm64"⟩,
        ⟨sha64 "c2", 410, [(sha64 "c4", 4611686018427387904)]⟩)]⟩

/-- The nested index `9999`: an index with two platform images of its own. -/
def innerIndex : IndexData :=
  ⟨sha "9999", 450,
    [(⟨ociManifest, 400, sha "2222", "linux/amd64"⟩, amd64Image),
     (⟨ociManifest, 410, sha "3333", "linux/arm64"⟩, arm64Image)]⟩

/-- An index whose only child entry is the index `9999`.  Asked for the image of that
entry, the client resolves the nested index to its `linux/amd64` image. -/
def outerIndex : ImageIndex :=
  ⟨.ok (sha "8888"), .ok 300, .ok ⟨[⟨ociIndex, 450, sha "9999", ""⟩]⟩,
    fun h => if h = sha "9999" then .ok (mkImage amd64Image) else .error "manifest unknown"⟩

/-- `name.ParseReference` with an empty default tag, on the names of the scenarios. -/
def demoParse (imageName : String) : Except Error Reference :=
  if imageName = "busybox" then .ok ⟨"", "busybox"⟩
  else if imageName = "norepo" then .ok ⟨"", "norepo"⟩
  else if imageName = "myindex:v1" then .ok ⟨"v1", "myindex:v1"⟩
  else if imageName = "app:v1" then .ok ⟨"v1", "app:v1"⟩
  else if imageName = "empty:v1" then .ok ⟨"v1", "empty:v1"⟩
  else if imageName = "big:v1" then .ok ⟨"v1", "big:v1"⟩
  else if imageName = "big:v2" then .ok ⟨"v2", "big:v2"⟩
  else if imageName = "odd:v1" then .ok ⟨"v1", "odd:v1"⟩
  else if imageName = "wide:v1" then .ok ⟨"v1", "wide:v1"⟩
  else if imageName = "nested:v1" then .ok ⟨"v1", "nested:v1"⟩
  else if imageName = "old:v1" then .ok ⟨"v1", "old:v1"⟩
  else .error "could not parse reference"

/-- `crane.Get` on the names of the scenarios. -/
def demoGet (name : String) : Except Error RemoteDescriptor :=
  if name = "busybox:latest" ∨ name = "busybox:1.36" ∨ name = "busybox:stable" then
    .ok (imageDescriptor busyboxImage)
  else if name = "myindex:v1" then .ok (indexDescriptor (mkIndex myindex))
  else if name = "app:v1" then .ok (imageDescriptor appImage)
  else if name = "empty:v1" then
    .ok (indexDescriptor (mkIndex emptyIndex))
  else if name = "big:v1" then .ok (imageDescriptor bigImage)
  else if name = "big:v2" then .ok (indexDescriptor (mkIndex bigIndex))
  else if name = "odd:v1" then .ok (imageDescriptor oddImage)
  else if name = "wide:v1" then .ok (indexDescriptor (mkIndex wideIndex))
  else if name = "nested:v1" then .ok (indexDescriptor outerIndex)
  else if name = "nested@sha256:9999" then
    .ok (indexDescriptor (mkIndex innerIndex))
  else if name = "old:v1" then
    .ok ⟨"application/vnd.docker.distribution.manifest.v1+json",
      .error "unexpected media type for ImageIndex()", .error "unsupported MediaType"⟩
  else .error "MANIFEST_UNKNOWN"

/-- The registry of the scenarios; `busyboxTags` is the tag list of `busybox`, and the
repository `norepo` has no tag. -/
def demo (busyboxTags : List String) : Registry where
  ParseReference := demoParse
  ListTags := fun name =>
    if name = "busybox" then .ok busyboxTags
    else if name = "norepo" then .ok []
    else .error "NAME_UNKNOWN"
  Get := demoGet

/-- The blob lines among the lines written, as pairs of key and size. -/
def blobLines (ls : List Line) : List (String × Int) :=
  ls.filterMap (fun l => match l with
    | .blob k v => some (k, v)
    | .total _ => none)

/-! # Properties

## Maps -/

namespace GoMap

theorem get?_set (m : GoMap) (k : String) (v : Int) (k' : String) :
    (m.set k v).get? k' = if k = k' then some v else m.get? k' := by
  induction m with
  | nil => simp [set, get?]
  | cons p rest ih =>
    obtain ⟨a, b⟩ := p
    by_cases h : a = k
    · subst h
      by_cases h' : a = k' <;> simp [set, get?, h']
    · by_cases h' : a = k'
      · subst h'
        simp [set, get?, h, Ne.symm h]
      · simp [set, get?, h, h', ih]

theorem mem_keys_set (m : GoMap) (k : String) (v : Int) (k' : String) :
    k' ∈ (m.set k v).keys ↔ k' = k ∨ k' ∈ m.keys := by
  induction m with
  | nil => simp [set, keys]
  | cons p rest ih =>
    obtain ⟨a, b⟩ := p
    by_cases h : a = k
    · subst h
      simp [set, keys]
    · simp only [keys] at ih
      simp [set, keys, h, ih]
      tauto

theorem nodup_keys_set (m : GoMap) (k : String) (v : Int) (h : m.keys.Nodup) :
    (m.set k v).keys.Nodup := by
  induction m with
  | nil => simp [set, keys]
  | cons p rest ih =>
    obtain ⟨a, b⟩ := p
    have hr : (keys rest).Nodup := by
      simp only [keys, List.map_cons, List.nodup_cons] at h
      exact h.2
    have ha : a ∉ keys rest := by
      simp only [keys, List.map_cons, List.nodup_cons] at h
      exact h.1
    by_cases hk : a = k
    · subst hk
      simpa [set, keys] using h
    · have := mem_keys_set rest k v a
      simp only [set, hk, if_false, keys, List.map_cons, List.nodup_cons]
      refine ⟨?_, ih hr⟩
      intro hmem
      rcases (mem_keys_set rest k v a).1 hmem with h1 | h1
      · exact hk h1
      · exact ha h1

theorem get?_eq_none_iff (m : GoMap) (k : String) : m.get? k = none ↔ k ∉ m.keys := by
  induction m with
  | nil => simp [get?, keys]
  | cons p rest ih =>
    obtain ⟨a, b⟩ := p
    by_cases h : a = k
    · simp [get?, keys, h]
    · simp only [keys] at ih
      simp [get?, keys, h, ih, Ne.symm h]

theorem mem_of_get? (m : GoMap) (k : String) (v : Int) (h : m.get? k = some v) : (k, v) ∈ m := by
  induction m with
  | nil => simp [get?] at h
  | cons p rest ih =>
    obtain ⟨a, b⟩ := p
    by_cases hk : a = k
    · simp [get?, hk] at h
      simp [hk, h]
    · simp [get?, hk] at h
      exact List.mem_cons_of_mem _ (ih h)

theorem get?_of_mem (m : GoMap) (k : String) (v : Int) (hn : m.keys.Nodup) (h : (k, v) ∈ m) :
    m.get? k = some v := by
  induction m with
  | nil => simp at h
  | cons p rest ih =>
    obtain ⟨a, b⟩ := p
    simp only [keys, List.map_cons, List.nodup_cons] at hn
    rcases List.mem_cons.1 h with h1 | h1
    · cases h1
      simp [get?]
    · have hne : a ≠ k := by
        rintro rfl
        exact hn.1 (List.mem_map.2 ⟨(a, v), h1, rfl⟩)
      simp [get?, hne, ih hn.2 h1]

theorem set_eq_self (m : GoMap) (k : String) (v : Int) (h : m.get? k = some v) :
    m.set k v = m := by
  induction m with
  | nil => simp [get?] at h
  | cons p rest ih =>
    obtain ⟨a, b⟩ := p
    by_cases hk : a = k
    · simp [get?, hk] at h
      simp [set, hk, h]
    · simp [get?, hk] at h
      simp [set, hk, ih h]

theorem nodup_of_nodup_keys (m : GoMap) (h : m.keys.Nodup) : m.Nodup :=
  List.Nodup.of_map _ h

theorem perm_of_get?_eq (m₁ m₂ : GoMap) (h₁ : m₁.keys.Nodup) (h₂ : m₂.keys.Nodup)
    (h : ∀ k, m₁.get? k = m₂.get? k) : m₁.Perm m₂ := by
  refine (List.perm_ext_iff_of_nodup (nodup_of_nodup_keys _ h₁) (nodup_of_nodup_keys _ h₂)).2 ?_
  rintro ⟨k, v⟩
  constructor
  · intro hm
    exact mem_of_get? _ _ _ ((h k) ▸ get?_of_mem _ _ _ h₁ hm)
  · intro hm
    exact mem_of_get? _ _ _ ((h k).symm ▸ get?_of_mem _ _ _ h₂ hm)

theorem get?_eq_of_perm (m₁ m₂ : GoMap) (h₁ : m₁.keys.Nodup) (h : m₁.Perm m₂)
    (k : String) : m₁.get? k = m₂.get? k := by
  have h₂ : m₂.keys.Nodup := (h.map Prod.fst).nodup_iff.1 h₁
  cases hv : m₂.get? k with
  | none =>
    rw [get?_eq_none_iff] at hv ⊢
    intro hk
    exact hv ((h.map Prod.fst).mem_iff.1 hk)
  | some v =>
    exact get?_of_mem _ _ _ h₁ (h.mem_iff.2 (mem_of_get? _ _ _ hv))

theorem sum_eq_of_perm (m₁ m₂ : GoMap) (h : m₁.Perm m₂) : m₁.sum = m₂.sum :=
  (h.map Prod.snd).sum_eq

end GoMap

/-! ## Tables of blobs -/

theorem Tabulates.nil : Tabulates [] [] := by
  simp [Tabulates, GoMap.keys, GoMap.get?]

theorem Tabulates.set {T : GoMap} {L : List (String × Int)} (h : Tabulates T L)
    (k : String) (v : Int) : Tabulates (T.set k v) (L ++ [(k, v)]) := by
  obtain ⟨hn, hk, hv⟩ := h
  refine ⟨GoMap.nodup_keys_set _ _ _ hn, ?_, ?_⟩
  · intro k'
    rw [GoMap.mem_keys_set, hk k']
    simp [or_comm]
  · intro k' v' hget
    rw [GoMap.get?_set] at hget
    by_cases hkk : k = k'
    · simp [hkk] at hget
      simp [← hkk, ← hget]
    · simp [hkk] at hget
      exact List.mem_append_left _ (hv _ _ hget)

theorem Tabulates.foldl_set {T : GoMap} {L : List (String × Int)} (h : Tabulates T L)
    (es : List (String × Int)) :
    Tabulates (es.foldl (fun m kv => m.set kv.1 kv.2) T) (L ++ es) := by
  induction es generalizing T L with
  | nil => simpa using h
  | cons e rest ih =>
    have := ih (h.set e.1 e.2)
    simpa [List.append_assoc] using this

/-- Only membership in the list of blobs matters. -/
theorem Tabulates.congr {T : GoMap} {L L' : List (String × Int)} (h : Tabulates T L)
    (hL : ∀ p, p ∈ L ↔ p ∈ L') : Tabulates T L' := by
  obtain ⟨hn, hk, hv⟩ := h
  refine ⟨hn, ?_, ?_⟩
  · intro k
    rw [hk k]
    simp only [List.mem_map]
    constructor
    · rintro ⟨p, hp, rfl⟩
      exact ⟨p, (hL p).1 hp, rfl⟩
    · rintro ⟨p, hp, rfl⟩
      exact ⟨p, (hL p).2 hp, rfl⟩
  · intro k v hget
    exact (hL _).1 (hv k v hget)

theorem Tabulates.mapsInsert {order : GoMap → GoMap} (ho : PermOrder order)
    {T S : GoMap} {L M : List (String × Int)} (hT : Tabulates T L) (hS : Tabulates S M) :
    Tabulates (mapsInsert order T S) (L ++ M) := by
  have h1 := hT.foldl_set (order S)
  unfold CalcImageSize.mapsInsert
  obtain ⟨hn, hk, hv⟩ := h1
  obtain ⟨hSn, hSk, hSv⟩ := hS
  have hmemS : ∀ k, k ∈ (order S).map Prod.fst ↔ k ∈ M.map Prod.fst := by
    intro k
    rw [((ho S).map Prod.fst).mem_iff]
    exact hSk k
  refine ⟨hn, ?_, ?_⟩
  · intro k
    rw [hk k]
    simp only [List.map_append, List.mem_append, hmemS]
  · intro k v hget
    rcases List.mem_append.1 (hv k v hget) with h | h
    · exact List.mem_append_left _ h
    · have : (k, v) ∈ S := (ho S).mem_iff.1 h
      exact List.mem_append_right _ (hSv k v (GoMap.get?_of_mem _ _ _ hSn this))

/-- Under consistent sizes every blob of the list is looked up with its size. -/
theorem Tabulates.get?_eq {T : GoMap} {L : List (String × Int)} (h : Tabulates T L)
    (hc : Consistent L) {k : String} {v : Int} (hm : (k, v) ∈ L) : T.get? k = some v := by
  obtain ⟨hn, hk, hv⟩ := h
  have hkT : k ∈ T.keys := (hk k).2 (List.mem_map.2 ⟨(k, v), hm, rfl⟩)
  cases hg : T.get? k with
  | none => exact absurd hkT ((GoMap.get?_eq_none_iff _ _).1 hg)
  | some v' =>
    have := hc _ (hv k v' hg) _ hm rfl
    simp at this
    simp [this]

theorem Tabulates.length_eq {T : GoMap} {L : List (String × Int)} (h : Tabulates T L) :
    T.length = (L.map Prod.fst).dedup.length := by
  obtain ⟨hn, hk, hv⟩ := h
  have hp : T.keys.Perm (L.map Prod.fst).dedup := by
    refine (List.perm_ext_iff_of_nodup hn (List.nodup_dedup _)).2 ?_
    intro k
    rw [hk k, List.mem_dedup]
  have := hp.length_eq
  simpa [GoMap.keys] using this

theorem Tabulates.perm {T : GoMap} {L : List (String × Int)} (h : Tabulates T L)
    (hL : (L.map Prod.fst).Nodup) : T.Perm L := by
  obtain ⟨hn, hk, hv⟩ := h
  refine (List.perm_ext_iff_of_nodup (GoMap.nodup_of_nodup_keys _ hn)
    (List.Nodup.of_map _ hL)).2 ?_
  rintro ⟨k, v⟩
  constructor
  · intro hm
    exact hv k v (GoMap.get?_of_mem _ _ _ hn hm)
  · intro hm
    have hkT : k ∈ T.keys := (hk k).2 (List.mem_map.2 ⟨(k, v), hm, rfl⟩)
    cases hg : T.get? k with
    | none => exact absurd hkT ((GoMap.get?_eq_none_iff _ _).1 hg)
    | some v' =>
      have h1 : (k, v') ∈ L := hv k v' hg
      have : GoMap.get? L k = some v := GoMap.get?_of_mem L k v hL hm
      have h2 : GoMap.get? L k = some v' := GoMap.get?_of_mem L k v' hL h1
      rw [this] at h2
      cases h2
      exact GoMap.mem_of_get? _ _ _ hg

theorem Tabulates.self {T : GoMap} (h : T.keys.Nodup) : Tabulates T T :=
  ⟨h, fun _ => Iff.rfl, fun k v hg => GoMap.mem_of_get? T k v hg⟩

theorem GoMap.get?_foldl_set (es : GoMap) (hn : es.keys.Nodup) (m : GoMap) (k : String) :
    (es.foldl (fun m kv => m.set kv.1 kv.2) m).get? k =
      match es.get? k with
      | some v => some v
      | none => m.get? k := by
  induction es generalizing m with
  | nil => simp [GoMap.get?]
  | cons e rest ih =>
    obtain ⟨a, b⟩ := e
    simp only [GoMap.keys, List.map_cons, List.nodup_cons] at hn
    simp only [List.foldl_cons]
    rw [ih hn.2, GoMap.get?_set]
    by_cases h : a = k
    · subst h
      have : GoMap.get? rest a = none := (GoMap.get?_eq_none_iff rest a).2 hn.1
      simp [GoMap.get?, this]
    · simp [GoMap.get?, h]

theorem get?_mapsInsert {order : GoMap → GoMap} (ho : PermOrder order) (dst src : GoMap)
    (hs : src.keys.Nodup) (k : String) :
    (mapsInsert order dst src).get? k =
      match src.get? k with
      | some v => some v
      | none => dst.get? k := by
  have hn : (order src).keys.Nodup := ((ho src).map Prod.fst).nodup_iff.2 hs
  unfold mapsInsert
  rw [GoMap.get?_foldl_set _ hn, GoMap.get?_eq_of_perm _ _ hn (ho src)]

theorem nodup_foldl_set (es : List (String × Int)) (m : GoMap) (h : m.keys.Nodup) :
    (es.foldl (fun m kv => m.set kv.1 kv.2) m).keys.Nodup := by
  induction es generalizing m with
  | nil => simpa using h
  | cons e rest ih => exact ih _ (GoMap.nodup_keys_set _ _ _ h)

theorem nodup_mapsInsert (order : GoMap → GoMap) (dst src : GoMap) (h : dst.keys.Nodup) :
    (mapsInsert order dst src).keys.Nodup :=
  nodup_foldl_set _ _ h

/-- A merge that brings nothing new leaves the table as it is. -/
theorem mapsInsert_eq_self {order : GoMap → GoMap} (ho : PermOrder order) (dst src : GoMap)
    (hs : src.keys.Nodup) (h : ∀ k v, src.get? k = some v → dst.get? k = some v) :
    mapsInsert order dst src = dst := by
  have key : ∀ es : List (String × Int), (∀ p ∈ es, dst.get? p.1 = some p.2) →
      es.foldl (fun m kv => m.set kv.1 kv.2) dst = dst := by
    intro es
    induction es with
    | nil => intro _; rfl
    | cons e rest ih =>
      intro hes
      simp only [List.foldl_cons]
      rw [GoMap.set_eq_self _ _ _ (hes e (List.mem_cons_self _ _))]
      exact ih (fun p hp => hes p (List.mem_cons_of_mem _ hp))
  refine key _ ?_
  intro p hp
  have hp' : (p.1, p.2) ∈ src := (ho src).mem_iff.1 hp
  exact h _ _ (GoMap.get?_of_mem _ _ _ hs hp')

/-! ## Walking one reference -/

theorem layersLoop_reads (ls : List Layer) (ps : List (Hash × Int))
    (h : List.Forall₂ Layer.Reads ls ps) (m : GoMap) :
    layersLoop ls m = .ok ((ps.map entry).foldl (fun m kv => m.set kv.1 kv.2) m) := by
  induction h generalizing m with
  | nil => rfl
  | cons hl _ ih =>
    obtain ⟨h1, h2⟩ := hl
    simp only [layersLoop, h1, h2, List.map_cons, List.foldl_cons, entry]
    exact ih _

theorem getBlobsByImage_reads (image : Image) (d : ImageData) (h : image.Reads d) :
    getBlobsByImage image =
      .ok ((d.blobs.map entry).foldl (fun m kv => m.set kv.1 kv.2) []) := by
  obtain ⟨h1, h2, ls, h3, h4⟩ := h
  simp only [getBlobsByImage, h1, h2, h3, ImageData.blobs, List.map_cons, List.foldl_cons]
  rw [layersLoop_reads ls d.layers h4]
  rfl

theorem getBlobsByImage_tabulates (image : Image) (d : ImageData) (h : image.Reads d) :
    ∃ T, getBlobsByImage image = .ok T ∧ Tabulates T (d.blobs.map entry) := by
  refine ⟨_, getBlobsByImage_reads image d h, ?_⟩
  simpa using Tabulates.nil.foldl_set (d.blobs.map entry)

theorem indexLoop_reads {order : GoMap → GoMap} (ho : PermOrder order) (index : ImageIndex)
    (name : String) (cs : List (Descriptor × ImageData))
    (h : ∀ c ∈ cs, ∃ img, index.Image c.1.Digest = .ok img ∧ img.Reads c.2)
    (acc : GoMap) (L : List (String × Int)) (hacc : Tabulates acc L) :
    ∃ T, indexLoop order index name (cs.map Prod.fst) acc =
        ⟨cs.flatMap (fun c => childEvents name c.1), .ok T⟩ ∧
      Tabulates T (L ++ (cs.flatMap (fun c => c.2.blobs)).map entry) := by
  induction cs generalizing acc L with
  | nil => exact ⟨acc, rfl, by simpa using hacc⟩
  | cons c rest ih =>
    obtain ⟨img, himg, hreads⟩ := h c (List.mem_cons_self _ _)
    obtain ⟨S, hS, hST⟩ := getBlobsByImage_tabulates img c.2 hreads
    obtain ⟨T, hT, hTT⟩ := ih (fun c' hc' => h c' (List.mem_cons_of_mem _ hc'))
      (mapsInsert order acc S) _ (hacc.mapsInsert ho hST)
    refine ⟨T, ?_, ?_⟩
    · simp only [List.map_cons, indexLoop, himg, hS, hT, List.flatMap_cons]
    · simpa [List.flatMap_cons, List.append_assoc] using hTT

theorem getBlobsByImageTag_index {order : GoMap → GoMap} (ho : PermOrder order) (W : Registry)
    (name : String) (ref : RemoteDescriptor) (index : ImageIndex) (d : IndexData)
    (hget : W.Get name = .ok ref) (hidx : ref.ImageIndex = .ok index) (h : index.Reads d) :
    ∃ T, getBlobsByImageTag order W name =
        ⟨[.get name, .slogInfo "get images from image index" [("name", name)]] ++
          d.children.flatMap (fun c => childEvents name c.1), .ok T⟩ ∧
      Tabulates T (d.blobs.map entry) := by
  obtain ⟨h1, h2, ⟨im, h3, h4⟩, h5⟩ := h
  obtain ⟨T, hT, hTT⟩ := indexLoop_reads ho index name d.children h5
    (GoMap.set [] d.digest.Hex d.size) [entry (d.digest, d.size)]
    (by simpa [entry] using Tabulates.nil.set d.digest.Hex d.size)
  refine ⟨T, ?_, ?_⟩
  · simp only [getBlobsByImageTag, hget, hidx, h1, h2, h3, h4, hT]
  · simpa [IndexData.blobs] using hTT

theorem getBlobsByImageTag_image (order : GoMap → GoMap) (W : Registry)
    (name : String) (ref : RemoteDescriptor) (e : Error) (image : Image) (d : ImageData)
    (hget : W.Get name = .ok ref) (hidx : ref.ImageIndex = .error e)
    (himg : ref.Image = .ok image) (h : image.Reads d) :
    getBlobsByImageTag order W name =
      ⟨[.get name, .slogInfo "get blobs from image" [("name", name)]],
        .ok ((d.blobs.map entry).foldl (fun m kv => m.set kv.1 kv.2) [])⟩ := by
  simp only [getBlobsByImageTag, hget, hidx, himg, getBlobsByImage_reads image d h]

/-! ## Tables are well formed -/

theorem layersLoop_nodup (ls : List Layer) (m T : GoMap) (hm : m.keys.Nodup)
    (h : layersLoop ls m = .ok T) : T.keys.Nodup := by
  induction ls generalizing m with
  | nil =>
    simp only [layersLoop, Except.ok.injEq] at h
    exact h ▸ hm
  | cons l rest ih =>
    simp only [layersLoop] at h
    split at h
    · cases h
    · split at h
      · cases h
      · exact ih _ (GoMap.nodup_keys_set _ _ _ hm) h

theorem getBlobsByImage_nodup (image : Image) (T : GoMap) (h : getBlobsByImage image = .ok T) :
    T.keys.Nodup := by
  simp only [getBlobsByImage] at h
  split at h
  · cases h
  · split at h
    · cases h
    · split at h
      · cases h
      · exact layersLoop_nodup _ _ _ (GoMap.nodup_keys_set _ _ _ (by simp [GoMap.keys])) h

theorem indexLoop_nodup (order : GoMap → GoMap) (index : ImageIndex) (name : String)
    (refs : List Descriptor) (acc T : GoMap) (hacc : acc.keys.Nodup)
    (h : (indexLoop order index name refs acc).result = .ok T) : T.keys.Nodup := by
  induction refs generalizing acc with
  | nil =>
    simp only [indexLoop, Except.ok.injEq] at h
    exact h ▸ hacc
  | cons r rest ih =>
    simp only [indexLoop] at h
    split at h
    · cases h
    · split at h
      · cases h
      · exact ih _ (nodup_mapsInsert _ _ _ hacc) h

theorem getBlobsByImageTag_nodup (order : GoMap → GoMap) (W : Registry) (name : String)
    (T : GoMap) (h : (getBlobsByImageTag order W name).result = .ok T) : T.keys.Nodup := by
  simp only [getBlobsByImageTag] at h
  split at h
  · cases h
  · split at h
    · split at h
      · cases h
      · split at h
        · cases h
        · split at h
          · cases h
          · exact indexLoop_nodup _ _ _ _ _ _
              (GoMap.nodup_keys_set _ _ _ (by simp [GoMap.keys])) h
    · split at h
      · exact getBlobsByImage_nodup _ _ h
      · cases h

theorem tagsLoop_nodup (order : GoMap → GoMap) (W : Registry) (name : String)
    (tags : List String) (acc T : GoMap) (hacc : acc.keys.Nodup)
    (h : (tagsLoop order W name tags acc).result = .ok T) : T.keys.Nodup := by
  induction tags generalizing acc with
  | nil =>
    simp only [tagsLoop, Except.ok.injEq] at h
    exact h ▸ hacc
  | cons t rest ih =>
    simp only [tagsLoop] at h
    split at h
    · cases h
    · exact ih _ (nodup_mapsInsert _ _ _ hacc) h

theorem getBlobsByNameForAllTags_nodup (order : GoMap → GoMap) (W : Registry) (name : String)
    (T : GoMap) (h : (getBlobsByNameForAllTags order W name).result = .ok T) :
    T.keys.Nodup := by
  simp only [getBlobsByNameForAllTags] at h
  split at h
  · cases h
  · exact tagsLoop_nodup _ _ _ _ _ _ (by simp [GoMap.keys]) h

theorem runBody_nodup (order : GoMap → GoMap) (W : Registry) (imageName : String)
    (T : GoMap) (h : (runBody order W imageName).result = .ok T) : T.keys.Nodup := by
  simp only [runBody] at h
  split at h
  · cases h
  · split at h
    · exact getBlobsByNameForAllTags_nodup _ _ _ _ h
    · exact getBlobsByImageTag_nodup _ _ _ _ h

/-! ## Events -/

theorem stdout_append (a b : List Event) : stdout (a ++ b) = stdout a ++ stdout b := by
  simp [stdout, List.filterMap_append]

theorem walked_append (a b : List Event) : walked (a ++ b) = walked a ++ walked b := by
  simp [walked, List.filterMap_append]

theorem childFetches_append (a b : List Event) :
    childFetches (a ++ b) = childFetches a ++ childFetches b := by
  simp [childFetches, List.filterMap_append]

theorem indexLoop_quiet (order : GoMap → GoMap) (index : ImageIndex) (name : String)
    (refs : List Descriptor) (acc : GoMap) :
    stdout (indexLoop order index name refs acc).events = [] ∧
      walked (indexLoop order index name refs acc).events = [] := by
  induction refs generalizing acc with
  | nil => simp [indexLoop, stdout, walked]
  | cons r rest ih =>
    simp only [indexLoop]
    split
    · simp [stdout, walked, childEvents]
    · split
      · simp [stdout, walked, childEvents]
      · have := ih (mapsInsert order acc ‹GoMap›)
        simp only [stdout_append, walked_append, this]
        simp [stdout, walked, childEvents]

/-- A walk writes nothing to standard output and calls `crane.Get` once, on its argument. -/
theorem getBlobsByImageTag_quiet (order : GoMap → GoMap) (W : Registry) (name : String) :
    stdout (getBlobsByImageTag order W name).events = [] ∧
      walked (getBlobsByImageTag order W name).events = [name] := by
  simp only [getBlobsByImageTag]
  split
  · simp [stdout, walked]
  · split
    · split
      · simp [stdout, walked]
      · split
        · simp [stdout, walked]
        · split
          · simp [stdout, walked]
          · have := indexLoop_quiet order ‹ImageIndex› name
              (‹IndexManifest›).Manifests (GoMap.set [] (‹Hash›).Hex ‹Int›)
            simp only [stdout_append, walked_append, this]
            simp [stdout, walked]
    · split
      · simp [stdout, walked]
      · simp [stdout, walked]

theorem stdout_map_println (ls : List Line) : stdout (ls.map Event.println) = ls := by
  induction ls with
  | nil => rfl
  | cons l rest ih =>
    simp only [stdout] at ih
    simp [stdout, ih]

theorem tagsLoop_quiet (order : GoMap → GoMap) (W : Registry) (name : String)
    (tags : List String) (acc : GoMap) :
    stdout (tagsLoop order W name tags acc).events = [] ∧
      walked (tagsLoop order W name tags acc).events <+:
        tags.map (fun tag => name ++ ":" ++ tag) := by
  induction tags generalizing acc with
  | nil => simp [tagsLoop, stdout, walked]
  | cons t rest ih =>
    have hq := getBlobsByImageTag_quiet order W (name ++ ":" ++ t)
    simp only [tagsLoop]
    split
    · simp only [hq, List.map_cons, true_and]
      exact List.prefix_append [name ++ ":" ++ t] _
    · have := ih (mapsInsert order acc ‹GoMap›)
      simp only [stdout_append, walked_append, hq, this, List.map_cons, List.append_nil,
        true_and]
      exact (List.prefix_cons_inj _).2 this.2

theorem tagsLoop_ok (order : GoMap → GoMap) (W : Registry) (name : String)
    (tags : List String) (T : String → GoMap)
    (h : ∀ tag ∈ tags, (getBlobsByImageTag order W (name ++ ":" ++ tag)).result = .ok (T tag))
    (acc : GoMap) :
    tagsLoop order W name tags acc =
      ⟨tags.flatMap (fun tag => (getBlobsByImageTag order W (name ++ ":" ++ tag)).events),
        .ok (tags.foldl (fun a tag => mapsInsert order a (T tag)) acc)⟩ := by
  induction tags generalizing acc with
  | nil => rfl
  | cons t rest ih =>
    simp only [tagsLoop, h t (List.mem_cons_self _ _),
      ih (fun t' ht' => h t' (List.mem_cons_of_mem _ ht')), List.flatMap_cons, List.foldl_cons]

theorem getBlobsByNameForAllTags_quiet (order : GoMap → GoMap) (W : Registry) (name : String) :
    stdout (getBlobsByNameForAllTags order W name).events = [] := by
  simp only [getBlobsByNameForAllTags]
  split
  · simp [stdout]
  · have := (tagsLoop_quiet order W name ‹List String› []).1
    simpa [stdout] using this

theorem runBody_quiet (order : GoMap → GoMap) (W : Registry) (imageName : String) :
    stdout (runBody order W imageName).events = [] := by
  simp only [runBody]
  split
  · simp [stdout]
  · split
    · have := getBlobsByNameForAllTags_quiet order W imageName
      simpa [stdout] using this
    · have := (getBlobsByImageTag_quiet order W (‹Reference›).str).1
      simpa [stdout] using this

theorem stdout_flatMap_runBody (order : GoMap → GoMap) (W : Registry) (names : List String) :
    stdout (names.flatMap (fun n => (runBody order W n).events)) = [] := by
  induction names with
  | nil => rfl
  | cons n rest ih => simp [List.flatMap_cons, stdout_append, runBody_quiet, ih]

theorem runLoop_ok (order : GoMap → GoMap) (W : Registry) (names : List String)
    (T : String → GoMap) (h : ∀ n ∈ names, (runBody order W n).result = .ok (T n))
    (acc : GoMap) :
    runLoop order W names acc =
      ⟨names.flatMap (fun n => (runBody order W n).events),
        .ok (names.foldl (fun a n => mapsInsert order a (T n)) acc)⟩ := by
  induction names generalizing acc with
  | nil => rfl
  | cons n rest ih =>
    simp only [runLoop, h n (List.mem_cons_self _ _),
      ih (fun n' hn' => h n' (List.mem_cons_of_mem _ hn')), List.flatMap_cons, List.foldl_cons]

theorem runLoop_fail (order : GoMap → GoMap) (W : Registry) (pre : List String)
    (bad : String) (post : List String) (err : Error) (T : String → GoMap)
    (h : ∀ n ∈ pre, (runBody order W n).result = .ok (T n))
    (hbad : (runBody order W bad).result = .error err) (acc : GoMap) :
    runLoop order W (pre ++ bad :: post) acc =
      ⟨(pre ++ [bad]).flatMap (fun n => (runBody order W n).events), .error err⟩ := by
  induction pre generalizing acc with
  | nil => simp [runLoop, hbad]
  | cons n rest ih =>
    have := ih (fun n' hn' => h n' (List.mem_cons_of_mem _ hn')) (mapsInsert order acc (T n))
    simp only [List.cons_append, runLoop, h n (List.mem_cons_self _ _), List.flatMap_cons,
      List.append_eq, this]

/-! ## The whole run -/

/-- Merging tables one after the other gives a table of all their blobs. -/
theorem foldl_mapsInsert_tabulates {order : GoMap → GoMap} (ho : PermOrder order)
    {α : Type} (xs : List α) (T : α → GoMap) (L : α → List (String × Int))
    (h : ∀ x ∈ xs, Tabulates (T x) (L x)) (acc : GoMap) (L₀ : List (String × Int))
    (hacc : Tabulates acc L₀) :
    Tabulates (xs.foldl (fun a x => mapsInsert order a (T x)) acc) (L₀ ++ xs.flatMap L) := by
  induction xs generalizing acc L₀ with
  | nil => simpa using hacc
  | cons x rest ih =>
    have := ih (fun y hy => h y (List.mem_cons_of_mem _ hy)) _ _
      (hacc.mapsInsert ho (h x (List.mem_cons_self _ _)))
    simpa [List.flatMap_cons, List.append_assoc] using this

theorem wrap64_wrap64_add (x y : Int) : wrap64 (wrap64 x + y) = wrap64 (x + y) := by
  unfold wrap64
  omega

theorem wrap64_of_isInt64 (x : Int) (h : IsInt64 x) : wrap64 x = x := by
  unfold wrap64
  unfold IsInt64 at h
  omega

theorem printLoop_eq (es : List (String × Int)) (total : Int) :
    printLoop es (wrap64 total) =
      (es.map (fun e => Line.blob e.1 e.2), wrap64 (total + GoMap.sum es)) := by
  induction es generalizing total with
  | nil => simp [printLoop, GoMap.sum]
  | cons e rest ih =>
    obtain ⟨k, v⟩ := e
    simp only [printLoop, wrap64_wrap64_add, ih (total + v)]
    simp [GoMap.sum, add_assoc]

theorem runLoop_quiet (order : GoMap → GoMap) (W : Registry) (names : List String)
    (acc : GoMap) : stdout (runLoop order W names acc).events = [] := by
  induction names generalizing acc with
  | nil => rfl
  | cons n rest ih =>
    simp only [runLoop]
    split
    · exact runBody_quiet order W n
    · simp [stdout_append, runBody_quiet, ih]

/-- On success `run` prints the table in range order, then the wrapped sum of its values. -/
theorem run_ok {order : GoMap → GoMap} (ho : PermOrder order) (W : Registry)
    (names : List String) (A : GoMap)
    (h : (runLoop order W names []).result = .ok A) :
    (run order W names).result = .ok () ∧
      stdout (run order W names).events =
        (order A).map (fun e => Line.blob e.1 e.2) ++ [Line.total (wrap64 A.sum)] := by
  have hq : stdout (runLoop order W names []).events = [] := runLoop_quiet order W names []
  have hp := printLoop_eq (order A) 0
  have h0 : wrap64 0 = 0 := by decide
  rw [h0, zero_add, GoMap.sum_eq_of_perm _ _ (ho A)] at hp
  simp only [run, h, hp, stdout_append, hq, stdout_map_println]
  simp [stdout]

/-! ## The scenarios -/

theorem permOrder_id : PermOrder id := fun m => List.Perm.refl m

theorem mkImage_reads (d : ImageData) : (mkImage d).Reads d := by
  refine ⟨rfl, rfl, _, rfl, ?_⟩
  generalize d.layers = ls
  induction ls with
  | nil => exact List.Forall₂.nil
  | cons p rest ih => exact List.Forall₂.cons ⟨rfl, rfl⟩ ih

theorem myindex_reads : (mkIndex myindex).Reads myindex := by
  refine ⟨rfl, rfl, ⟨_, rfl, rfl⟩, ?_⟩
  intro c hc
  simp only [myindex, List.mem_cons, List.mem_singleton, List.not_mem_nil, or_false] at hc
  rcases hc with rfl | rfl
  · exact ⟨_, rfl, mkImage_reads _⟩
  · exact ⟨_, rfl, mkImage_reads _⟩

theorem wideIndex_reads : (mkIndex wideIndex).Reads wideIndex := by
  refine ⟨rfl, rfl, ⟨_, rfl, rfl⟩, ?_⟩
  intro c hc
  simp only [wideIndex, List.mem_cons, List.mem_singleton, List.not_mem_nil, or_false] at hc
  rcases hc with rfl | rfl
  · exact ⟨_, rfl, mkImage_reads _⟩
  · exact ⟨_, rfl, mkImage_reads _⟩

theorem clientDigits_distinct : DigitsDistinct clientDigits := by
  intro a b n ha hb
  unfold clientDigits at ha hb
  split at ha
  · split at hb
    · simp_all
    · split at hb
      · simp only [Option.some.injEq] at ha hb
        omega
      · cases hb
  · split at ha
    · split at hb
      · simp only [Option.some.injEq] at ha hb
        omega
      · split at hb
        · simp_all
        · cases hb
    · cases ha

/-- Digests that the client parsed and that have the same hex part are the same digest. -/
theorem Hash.eq_of_hex_eq {digits : String → Option Nat} (hd : DigitsDistinct digits)
    {p q : Hash} (hp : p.Parsed digits) (hq : q.Parsed digits) (h : p.Hex = q.Hex) :
    p = q := by
  obtain ⟨pa, ph⟩ := p
  obtain ⟨qa, qh⟩ := q
  simp only [Hash.Parsed] at hp hq
  simp only at h
  subst h
  have := hd pa qa _ hp hq
  subst this
  rfl

theorem bigIndex_reads : (mkIndex bigIndex).Reads bigIndex := by
  refine ⟨rfl, rfl, ⟨_, rfl, rfl⟩, ?_⟩
  intro c hc
  simp only [bigIndex, List.mem_cons, List.mem_singleton, List.not_mem_nil, or_false] at hc
  rcases hc with rfl | rfl
  · exact ⟨_, rfl, mkImage_reads _⟩
  · exact ⟨_, rfl, mkImage_reads _⟩

theorem mem_keys_indexBlobs (d : IndexData) (k : String) :
    k ∈ (d.blobs.map entry).map Prod.fst ↔
      k = d.digest.Hex ∨
        ∃ c ∈ d.children, k = c.2.digest.Hex ∨ ∃ l ∈ c.2.layers, k = l.1.Hex := by
  simp only [IndexData.blobs, ImageData.blobs, entry, List.map_cons, List.map_map,
    List.mem_cons, List.mem_map, List.mem_flatMap, Function.comp]
  constructor
  · rintro (h | ⟨p, ⟨c, hc, hp⟩, rfl⟩)
    · exact Or.inl h
    · rcases hp with rfl | hp
      · exact Or.inr ⟨c, hc, Or.inl rfl⟩
      · exact Or.inr ⟨c, hc, Or.inr ⟨p, hp, rfl⟩⟩
  · rintro (h | ⟨c, hc, h | ⟨l, hl, rfl⟩⟩)
    · exact Or.inl h
    · exact Or.inr ⟨(c.2.digest, c.2.size), ⟨c, hc, Or.inl rfl⟩, h.symm⟩
    · exact Or.inr ⟨l, ⟨c, hc, Or.inr hl⟩, rfl⟩

/-! ## Runs on one name, and counting -/

theorem blobLines_output (es : List (String × Int)) (t : Int) :
    blobLines (es.map (fun e => Line.blob e.1 e.2) ++ [Line.total t]) = es := by
  induction es with
  | nil => rfl
  | cons e rest ih =>
    simp only [blobLines] at ih
    simp [blobLines, ih]

theorem getBlobsByImageTag_reads {order : GoMap → GoMap} (ho : PermOrder order)
    (W : Registry) (name : String) (ref : RemoteDescriptor) (r : ManifestData)
    (hget : W.Get name = .ok ref) (h : ref.Reads r) :
    ∃ T, (getBlobsByImageTag order W name).result = .ok T ∧
      Tabulates T (r.blobs.map entry) := by
  cases r with
  | index d =>
    obtain ⟨index, hidx, hr⟩ := h
    obtain ⟨T, hT, hTab⟩ := getBlobsByImageTag_index ho W name ref index d hget hidx hr
    exact ⟨T, by rw [hT], hTab⟩
  | image d =>
    obtain ⟨⟨e, hidx⟩, image, himg, hr⟩ := h
    have hT := getBlobsByImageTag_image order W name ref e image d hget hidx himg hr
    refine ⟨_, by rw [hT], ?_⟩
    simpa [ManifestData.blobs] using Tabulates.nil.foldl_set (d.blobs.map entry)

/-- A run on one name prints the table of that name. -/
theorem run_one {order : GoMap → GoMap} (ho : PermOrder order) (W : Registry)
    (imageName : String) (T : GoMap) (hb : (runBody order W imageName).result = .ok T) :
    ∃ A : GoMap, A.Perm T ∧ (run order W [imageName]).result = .ok () ∧
      stdout (run order W [imageName]).events =
        A.map (fun e => Line.blob e.1 e.2) ++ [Line.total (wrap64 T.sum)] := by
  have hl := runLoop_ok order W [imageName] (fun _ => T)
    (fun n hn => by rw [List.mem_singleton.1 hn]; exact hb) []
  simp only [List.foldl_cons, List.foldl_nil] at hl
  have hTn := runBody_nodup order W imageName T hb
  have htab : Tabulates (mapsInsert order [] T) T := by
    simpa using Tabulates.nil.mapsInsert ho (Tabulates.self hTn)
  have hperm : (mapsInsert order [] T).Perm T := htab.perm hTn
  obtain ⟨h1, h2⟩ := run_ok ho W [imageName] (mapsInsert order [] T) (by rw [hl])
  refine ⟨order (mapsInsert order [] T), (ho _).trans hperm, h1, ?_⟩
  rw [h2, GoMap.sum_eq_of_perm _ _ hperm]

/-- A run on one name with a tag or digest prints the table of that reference. -/
theorem run_single {order : GoMap → GoMap} (ho : PermOrder order) (W : Registry)
    (imageName : String) (pref : Reference) (T : GoMap)
    (hp : W.ParseReference imageName = .ok pref) (hid : pref.Identifier ≠ "")
    (hT : (getBlobsByImageTag order W pref.str).result = .ok T) :
    ∃ A : GoMap, A.Perm T ∧ (run order W [imageName]).result = .ok () ∧
      stdout (run order W [imageName]).events =
        A.map (fun e => Line.blob e.1 e.2) ++ [Line.total (wrap64 T.sum)] := by
  refine run_one ho W imageName T ?_
  simp only [runBody, hp, hid, if_false, hT]

theorem length_flatMap_blobs (cs : List (Descriptor × ImageData)) :
    (cs.flatMap (fun c => c.2.blobs)).length =
      cs.length + (cs.map (fun c => c.2.layers.length)).sum := by
  induction cs with
  | nil => rfl
  | cons c rest ih =>
    simp only [List.flatMap_cons, List.length_append, List.map_cons, List.sum_cons]
    rw [ih]
    simp only [ImageData.blobs, List.length_cons]
    omega

theorem childFetches_childEvents (name : String) (cs : List (Descriptor × ImageData)) :
    childFetches (cs.flatMap (fun c => childEvents name c.1)) =
      cs.map (fun c => c.1.Digest) := by
  induction cs with
  | nil => rfl
  | cons c rest ih =>
    simp only [List.flatMap_cons, childFetches_append, ih, List.map_cons]
    simp [childFetches, childEvents]

theorem innerIndex_reads : (mkIndex innerIndex).Reads innerIndex := by
  refine ⟨rfl, rfl, ⟨_, rfl, rfl⟩, ?_⟩
  intro c hc
  simp only [innerIndex, List.mem_cons, List.mem_singleton, List.not_mem_nil, or_false] at hc
  rcases hc with rfl | rfl
  · exact ⟨_, rfl, mkImage_reads _⟩
  · exact ⟨_, rfl, mkImage_reads _⟩

theorem length_dedup_map_of_injOn {α β : Type} [DecidableEq α] [DecidableEq β] (f : α → β)
    (l : List α) (h : ∀ a ∈ l, ∀ b ∈ l, f a = f b → a = b) :
    (l.map f).dedup.length = l.dedup.length := by
  rw [← List.card_toFinset, ← List.card_toFinset]
  have himg : (l.map f).toFinset = l.toFinset.image f := by
    ext b
    simp [List.mem_toFinset, Finset.mem_image]
  rw [himg]
  refine Finset.card_image_of_injOn ?_
  intro a ha b hb hab
  exact h a (List.mem_toFinset.1 (Finset.mem_coe.1 ha)) b
    (List.mem_toFinset.1 (Finset.mem_coe.1 hb)) hab

theorem indexLoop_error (order : GoMap → GoMap) (index : ImageIndex) (name : String)
    (refs : List Descriptor) (acc : GoMap)
    (h : ∃ e ∈ refs, ∃ err, index.Image e.Digest = .error err) :
    ∃ err, (indexLoop order index name refs acc).result = .error err := by
  induction refs generalizing acc with
  | nil =>
    obtain ⟨e, he, _⟩ := h
    cases he
  | cons r rest ih =>
    simp only [indexLoop]
    split
    · exact ⟨_, rfl⟩
    · split
      · exact ⟨_, rfl⟩
      · obtain ⟨e, he, err, herr⟩ := h
        rcases List.mem_cons.1 he with rfl | hmem
        · simp_all
        · exact ih _ ⟨e, hmem, err, herr⟩

theorem GoMap.filter_key (m : GoMap) (k : String) (v : Int) (hn : m.keys.Nodup)
    (h : m.get? k = some v) : m.filter (fun e => e.1 = k) = [(k, v)] := by
  induction m with
  | nil => simp [GoMap.get?] at h
  | cons p rest ih =>
    obtain ⟨a, b⟩ := p
    simp only [GoMap.keys, List.map_cons, List.nodup_cons] at hn
    by_cases hk : a = k
    · subst hk
      simp only [GoMap.get?, if_true, Option.some.injEq] at h
      subst h
      have : rest.filter (fun e => e.1 = a) = [] := by
        rw [List.filter_eq_nil_iff]
        intro e he hea
        simp only [decide_eq_true_eq] at hea
        exact hn.1 (List.mem_map.2 ⟨e, he, hea⟩)
      simp [List.filter_cons, this]
    · simp only [GoMap.get?, hk, if_false] at h
      simp [List.filter_cons, hk, ih hn.2 h]

theorem walked_flatMap_tags (order : GoMap → GoMap) (W : Registry) (name : String)
    (tags : List String) :
    walked (tags.flatMap (fun tag => (getBlobsByImageTag order W (name ++ ":" ++ tag)).events)) =
      tags.map (fun tag => name ++ ":" ++ tag) := by
  induction tags with
  | nil => rfl
  | cons t rest ih =>
    simp only [List.flatMap_cons, walked_append, ih, List.map_cons,
      (getBlobsByImageTag_quiet order W (name ++ ":" ++ t)).2]
    rfl

theorem string_append_cancel (s t u : String) (h : s ++ t = s ++ u) : t = u := by
  have := congrArg String.data h
  simp only [String.data_append] at this
  exact String.ext (List.append_cancel_left this)

theorem foldl_mapsInsert_same {order : GoMap → GoMap} (ho : PermOrder order)
    (T A : GoMap) (hT : T.keys.Nodup) (h : ∀ k v, T.get? k = some v → A.get? k = some v)
    (tags : List String) :
    tags.foldl (fun a _ => mapsInsert order a T) A = A := by
  induction tags with
  | nil => rfl
  | cons t rest ih => rw [List.foldl_cons, mapsInsert_eq_self ho A T hT h, ih]

/-- The table of an unqualified name all of whose tags resolve to the same table. -/
theorem allTags_same_table {order : GoMap → GoMap} (ho : PermOrder order) (W : Registry)
    (name : String) (tags : List String) (T : GoMap) (hne : tags ≠ [])
    (htags : W.ListTags name = .ok tags)
    (h : ∀ tag ∈ tags, (getBlobsByImageTag order W (name ++ ":" ++ tag)).result = .ok T) :
    ∃ A, (getBlobsByNameForAllTags order W name).result = .ok A ∧ A.Perm T ∧
      ∀ k, A.get? k = T.get? k := by
  cases tags with
  | nil => exact absurd rfl hne
  | cons t rest =>
    have hTn : T.keys.Nodup :=
      getBlobsByImageTag_nodup order W _ T (h t (List.mem_cons_self _ _))
    have hl := tagsLoop_ok order W name (t :: rest) (fun _ => T) h []
    have htab : Tabulates (mapsInsert order [] T) T := by
      simpa using Tabulates.nil.mapsInsert ho (Tabulates.self hTn)
    have hperm : (mapsInsert order [] T).Perm T := htab.perm hTn
    have hget : ∀ k, (mapsInsert order [] T).get? k = T.get? k :=
      GoMap.get?_eq_of_perm _ _ htab.1 hperm
    refine ⟨mapsInsert order [] T, ?_, hperm, hget⟩
    simp only [getBlobsByNameForAllTags, htags, hl, List.foldl_cons]
    rw [foldl_mapsInsert_same ho T _ hTn (fun k v hk => (hget k).trans hk)]

/-- Among digests that the client parsed, pairwise distinct digests have pairwise distinct
hex parts. -/
theorem nodup_hex_of_nodup {digits : String → Option Nat} (hd : DigitsDistinct digits)
    (hs : List Hash) (hv : ∀ h ∈ hs, h.Parsed digits) (hn : hs.Nodup) :
    (hs.map Hash.Hex).Nodup := by
  refine (List.nodup_map_iff_inj_on hn).2 ?_
  intro p hp q hq hpq
  exact Hash.eq_of_hex_eq hd (hv p hp) (hv q hq) hpq

/-- Merging tables that do not have the key leaves the entry of the key as it is. -/
theorem get?_foldl_mapsInsert_none {order : GoMap → GoMap} (ho : PermOrder order)
    (T : String → GoMap) (k : String) (post : List String)
    (hn : ∀ m ∈ post, (T m).keys.Nodup) (hpost : ∀ m ∈ post, (T m).get? k = none)
    (acc : GoMap) :
    (post.foldl (fun a n => mapsInsert order a (T n)) acc).get? k = acc.get? k := by
  induction post generalizing acc with
  | nil => rfl
  | cons m rest ih =>
    rw [List.foldl_cons, ih (fun x hx => hn x (List.mem_cons_of_mem _ hx))
      (fun x hx => hpost x (List.mem_cons_of_mem _ hx)),
      get?_mapsInsert ho acc (T m) (hn m (List.mem_cons_self _ _)),
      hpost m (List.mem_cons_self _ _)]

/-! ## Every failure surfaces -/

theorem layersLoop_error (ls : List Layer) (m : GoMap)
    (h : ∃ l ∈ ls, (∃ err, l.Digest = .error err) ∨ ∃ err, l.Size = .error err) :
    ∃ err, layersLoop ls m = .error err := by
  induction ls generalizing m with
  | nil =>
    obtain ⟨l, hl, _⟩ := h
    cases hl
  | cons l rest ih =>
    simp only [layersLoop]
    split
    · exact ⟨_, rfl⟩
    · split
      · exact ⟨_, rfl⟩
      · obtain ⟨l', hl', hbad⟩ := h
        rcases List.mem_cons.1 hl' with rfl | hmem
        · rcases hbad with ⟨err, he⟩ | ⟨err, he⟩ <;> simp_all
        · exact ih _ ⟨l', hmem, hbad⟩

/-- A failing read of the manifest digest, the manifest size, the layer list or a layer
makes `getBlobsByImage` fail. -/
theorem getBlobsByImage_error (image : Image)
    (h : (∃ err, image.Digest = .error err) ∨ (∃ err, image.Size = .error err) ∨
      (∃ err, image.Layers = .error err) ∨
      ∃ ls, image.Layers = .ok ls ∧
        ∃ l ∈ ls, (∃ err, l.Digest = .error err) ∨ ∃ err, l.Size = .error err) :
    ∃ err, getBlobsByImage image = .error err := by
  simp only [getBlobsByImage]
  split
  · exact ⟨_, rfl⟩
  · split
    · exact ⟨_, rfl⟩
    · split
      · exact ⟨_, rfl⟩
      · rcases h with ⟨err, he⟩ | ⟨err, he⟩ | ⟨err, he⟩ | ⟨ls, hls, hbad⟩
        · simp_all
        · simp_all
        · simp_all
        · rename_i x il hil
          rw [hls] at hil
          cases hil
          exact layersLoop_error _ _ hbad

/-- A failing `crane.Get`, and a manifest that is neither an index nor an image, make the
walk fail. -/
theorem getBlobsByImageTag_error (order : GoMap → GoMap) (W : Registry) (name : String) :
    (∀ err, W.Get name = .error err →
        (getBlobsByImageTag order W name).result = .error err) ∧
      (∀ ref e₁ e₂, W.Get name = .ok ref → ref.ImageIndex = .error e₁ →
        ref.Image = .error e₂ →
        (getBlobsByImageTag order W name).result =
          .error ("manifest is not image and image index but '" ++ ref.MediaType ++ "'")) ∧
      (∀ ref e image, W.Get name = .ok ref → ref.ImageIndex = .error e →
        ref.Image = .ok image →
        (getBlobsByImageTag order W name).result = getBlobsByImage image) := by
  refine ⟨?_, ?_, ?_⟩
  · intro err h
    simp only [getBlobsByImageTag, h]
  · intro ref e₁ e₂ h1 h2 h3
    simp only [getBlobsByImageTag, h1, h2, h3]
  · intro ref e image h1 h2 h3
    simp only [getBlobsByImageTag, h1, h2, h3]

/-- A name that does not parse, and a repository whose tags cannot be listed, make the
body of the loop of `run` fail. -/
theorem runBody_error (order : GoMap → GoMap) (W : Registry) (imageName : String) :
    (∀ err, W.ParseReference imageName = .error err →
        (runBody order W imageName).result = .error err) ∧
      (∀ pref err, W.ParseReference imageName = .ok pref → pref.Identifier = "" →
        W.ListTags imageName = .error err →
        (runBody order W imageName).result =
          .error ("failed to get tags for '" ++ imageName ++ "'")) ∧
      (∀ pref, W.ParseReference imageName = .ok pref → pref.Identifier ≠ "" →
        (runBody order W imageName).result =
          (getBlobsByImageTag order W pref.str).result) := by
  refine ⟨?_, ?_, ?_⟩
  · intro err h
    simp only [runBody, h]
  · intro pref err h1 h2 h3
    simp only [runBody, h1, h2, if_true, getBlobsByNameForAllTags, h3]
  · intro pref h1 h2
    simp only [runBody, h1, h2, if_false]

/-! ## The claims -/

/-- C1: for a reference whose manifest is an image index and for which every registry
read succeeds, `getBlobsByImageTag` returns a table whose keys are exactly the digest hex
of the index, and for every child entry the manifest digest hex of the child image and the
digest hex of each of its layers; every value is a size reported for a blob with that
digest hex, and when blobs with equal digest hex report equal sizes every blob is found
under its digest hex with its size. -/
theorem getBlobsByImageTag_index_keys {order : GoMap → GoMap} (ho : PermOrder order)
    (W : Registry) (name : String) (ref : RemoteDescriptor) (index : ImageIndex)
    (d : IndexData) (hget : W.Get name = .ok ref) (hidx : ref.ImageIndex = .ok index)
    (h : index.Reads d) :
    ∃ T, (getBlobsByImageTag order W name).result = .ok T ∧ T.keys.Nodup ∧
      (∀ k, k ∈ T.keys ↔
        k = d.digest.Hex ∨
          ∃ c ∈ d.children, k = c.2.digest.Hex ∨ ∃ l ∈ c.2.layers, k = l.1.Hex) ∧
      (∀ k v, T.get? k = some v → ∃ p ∈ d.blobs, p.1.Hex = k ∧ p.2 = v) ∧
      ((∀ p ∈ d.blobs, ∀ q ∈ d.blobs, p.1.Hex = q.1.Hex → p.2 = q.2) →
        ∀ p ∈ d.blobs, T.get? p.1.Hex = some p.2) := by
  obtain ⟨T, hT, hTab⟩ := getBlobsByImageTag_index ho W name ref index d hget hidx h
  refine ⟨T, by rw [hT], hTab.1, ?_, ?_, ?_⟩
  · intro k
    rw [hTab.2.1 k, mem_keys_indexBlobs]
  · intro k v hg
    obtain ⟨p, hp, hpe⟩ := List.mem_map.1 (hTab.2.2 k v hg)
    simp only [entry, Prod.mk.injEq] at hpe
    exact ⟨p, hp, hpe.1, hpe.2⟩
  · intro hc p hp
    refine hTab.get?_eq ?_ (List.mem_map.2 ⟨p, hp, rfl⟩)
    intro a ha b hb hab
    obtain ⟨p', hp', rfl⟩ := List.mem_map.1 ha
    obtain ⟨q', hq', rfl⟩ := List.mem_map.1 hb
    exact hc p' hp' q' hq' hab

/-- C1 at `myindex:v1`: an index with two platform images of one layer each. -/
theorem getBlobsByImageTag_index_keys_witness :
    ∃ T, (getBlobsByImageTag id (demo []) "myindex:v1").result = .ok T ∧
      T.keys.Nodup ∧
      (∀ k, k ∈ T.keys ↔
        k = myindex.digest.Hex ∨
          ∃ c ∈ myindex.children, k = c.2.digest.Hex ∨ ∃ l ∈ c.2.layers, k = l.1.Hex) ∧
      (∀ k v, T.get? k = some v → ∃ p ∈ myindex.blobs, p.1.Hex = k ∧ p.2 = v) ∧
      ((∀ p ∈ myindex.blobs, ∀ q ∈ myindex.blobs, p.1.Hex = q.1.Hex → p.2 = q.2) →
        ∀ p ∈ myindex.blobs, T.get? p.1.Hex = some p.2) :=
  getBlobsByImageTag_index_keys permOrder_id (demo []) "myindex:v1"
    (indexDescriptor (mkIndex myindex)) (mkIndex myindex) myindex rfl rfl myindex_reads

/-- C6, as amended: for an index with `N` children whose digests (index, child manifests,
layers) are pairwise distinct, the table has `1 + N + L` entries, `L` the number of layers
over all children, and its sizes sum to the sum of all those sizes; a run on that
reference prints `1 + N + L` blob lines, and the total it prints is that sum wrapped into
the range of `int64`, the sum itself when it fits. -/
theorem index_entry_count {order : GoMap → GoMap} (ho : PermOrder order)
    {digits : String → Option Nat} (hd : DigitsDistinct digits)
    (W : Registry) (name : String) (ref : RemoteDescriptor) (index : ImageIndex)
    (d : IndexData) (hget : W.Get name = .ok ref) (hidx : ref.ImageIndex = .ok index)
    (h : index.Reads d) (hv : ∀ p ∈ d.blobs, p.1.Parsed digits)
    (hn : (d.blobs.map Prod.fst).Nodup) :
    ∃ T, (getBlobsByImageTag order W name).result = .ok T ∧
      T.length = 1 + d.children.length + d.layerCount ∧
      T.sum = (d.blobs.map Prod.snd).sum ∧
      ∀ imageName pref, W.ParseReference imageName = .ok pref → pref.Identifier ≠ "" →
        pref.str = name →
        (blobLines (stdout (run order W [imageName]).events)).length =
            1 + d.children.length + d.layerCount ∧
          (stdout (run order W [imageName]).events).getLast? =
            some (Line.total (wrap64 (d.blobs.map Prod.snd).sum)) ∧
          (IsInt64 (d.blobs.map Prod.snd).sum →
            (stdout (run order W [imageName]).events).getLast? =
              some (Line.total (d.blobs.map Prod.snd).sum)) := by
  obtain ⟨T, hT, hTab⟩ := getBlobsByImageTag_index ho W name ref index d hget hidx h
  have hres : (getBlobsByImageTag order W name).result = .ok T := by rw [hT]
  have hhex : ((d.blobs.map Prod.fst).map Hash.Hex).Nodup := by
    refine nodup_hex_of_nodup hd _ ?_ hn
    intro x hx
    obtain ⟨p, hp, rfl⟩ := List.mem_map.1 hx
    exact hv p hp
  have hperm : T.Perm (d.blobs.map entry) := by
    refine hTab.perm ?_
    rw [List.map_map] at hhex ⊢
    exact hhex
  have hlen : T.length = 1 + d.children.length + d.layerCount := by
    rw [hperm.length_eq, List.length_map, IndexData.blobs, List.length_cons,
      length_flatMap_blobs, IndexData.layerCount]
    omega
  have hsum : T.sum = (d.blobs.map Prod.snd).sum := by
    rw [GoMap.sum_eq_of_perm _ _ hperm]
    simp only [GoMap.sum, List.map_map]
    rfl
  refine ⟨T, hres, hlen, hsum, ?_⟩
  intro imageName pref hp hid hstr
  subst hstr
  obtain ⟨A, hA, _, hout⟩ := run_single ho W imageName pref T hp hid hres
  rw [hout, blobLines_output, hA.length_eq, hlen, hsum]
  refine ⟨rfl, by simp, ?_⟩
  intro hfit
  rw [wrap64_of_isInt64 _ hfit]
  simp

/-- C6 at `wide:v1`: two children with one layer each give five entries, five blob lines
and the total 4310. -/
theorem index_entry_count_witness :
    ∃ T, (getBlobsByImageTag id (demo []) "wide:v1").result = .ok T ∧
      T.length = 1 + 2 + 2 ∧
      T.sum = 500 + (400 + 1000) + (410 + 2000) ∧
      ∀ imageName pref, (demo []).ParseReference imageName = .ok pref →
        pref.Identifier ≠ "" → pref.str = "wide:v1" →
        (blobLines (stdout (run id (demo []) [imageName]).events)).length = 1 + 2 + 2 ∧
          (stdout (run id (demo []) [imageName]).events).getLast? =
            some (Line.total (wrap64 (wideIndex.blobs.map Prod.snd).sum)) ∧
          (IsInt64 (wideIndex.blobs.map Prod.snd).sum →
            (stdout (run id (demo []) [imageName]).events).getLast? =
              some (Line.total (wideIndex.blobs.map Prod.snd).sum)) :=
  index_entry_count permOrder_id clientDigits_distinct (demo []) "wide:v1"
    (indexDescriptor (mkIndex wideIndex)) (mkIndex wideIndex) wideIndex rfl rfl
    wideIndex_reads (by decide) (by decide)

set_option maxRecDepth 8000 in
/-- C6 fails as stated at `big:v2`: the five digests are pairwise distinct and the table
has five entries, the sizes sum to 9223372036854777118, and the total that the run
prints is -9223372036854774498. -/
theorem index_entry_count_counterexample :
    (bigIndex.blobs.map Prod.fst).Nodup ∧ (∀ p ∈ bigIndex.blobs, p.1.Parsed clientDigits) ∧
      (mkIndex bigIndex).Reads bigIndex ∧
      (demo []).Get "big:v2" = .ok (indexDescriptor (mkIndex bigIndex)) ∧
      (bigIndex.blobs.map Prod.snd).sum = 9223372036854777118 ∧
      (∀ p ∈ bigIndex.blobs, IsInt64 p.2) ∧
      (blobLines (stdout (run id (demo []) ["big:v2"]).events)).length = 5 ∧
      (stdout (run id (demo []) ["big:v2"]).events).getLast? =
        some (Line.total (-9223372036854774498)) :=
  ⟨by decide, by decide, bigIndex_reads, rfl, by rfl, by decide, by decide, by decide⟩

/-- C9: the blob digest is the deduplication key.  For every successful walk of a
reference, blobs whose digests differ have different keys, every blob is found under its
key and the keys are pairwise distinct, so the number of entries of the table, and of blob
lines that a run on that reference prints, is the number of distinct digests met.  The
digests are those the client hands over: parsed, with the number of hex digits that the
algorithm fixes. -/
theorem table_key_is_digest {order : GoMap → GoMap} (ho : PermOrder order)
    {digits : String → Option Nat} (hd : DigitsDistinct digits)
    (W : Registry) (name : String) (ref : RemoteDescriptor) (r : ManifestData)
    (hget : W.Get name = .ok ref) (h : ref.Reads r)
    (hv : ∀ p ∈ r.blobs, p.1.Parsed digits) :
    ∃ T, (getBlobsByImageTag order W name).result = .ok T ∧
      T.keys.Nodup ∧ (∀ p ∈ r.blobs, p.1.Hex ∈ T.keys) ∧
      (∀ p ∈ r.blobs, ∀ q ∈ r.blobs, p.1 ≠ q.1 → p.1.Hex ≠ q.1.Hex) ∧
      T.length = (r.blobs.map Prod.fst).dedup.length ∧
      ∀ imageName pref, W.ParseReference imageName = .ok pref → pref.Identifier ≠ "" →
        pref.str = name →
        (blobLines (stdout (run order W [imageName]).events)).length =
          (r.blobs.map Prod.fst).dedup.length := by
  obtain ⟨T, hT, hTab⟩ := getBlobsByImageTag_reads ho W name ref r hget h
  have hkeys : (r.blobs.map entry).map Prod.fst = (r.blobs.map Prod.fst).map Hash.Hex := by
    rw [List.map_map, List.map_map]
    rfl
  have hinj : ∀ a ∈ r.blobs.map Prod.fst, ∀ b ∈ r.blobs.map Prod.fst,
      a.Hex = b.Hex → a = b := by
    intro a ha b hb hab
    obtain ⟨p, hp, rfl⟩ := List.mem_map.1 ha
    obtain ⟨q, hq, rfl⟩ := List.mem_map.1 hb
    exact Hash.eq_of_hex_eq hd (hv p hp) (hv q hq) hab
  have hlen : T.length = (r.blobs.map Prod.fst).dedup.length := by
    rw [hTab.length_eq, hkeys, length_dedup_map_of_injOn Hash.Hex _ hinj]
  refine ⟨T, hT, hTab.1, ?_, ?_, hlen, ?_⟩
  · intro p hp
    rw [hTab.2.1, hkeys]
    exact List.mem_map.2 ⟨p.1, List.mem_map.2 ⟨p, hp, rfl⟩, rfl⟩
  · intro p hp q hq hne hhex
    exact hne (Hash.eq_of_hex_eq hd (hv p hp) (hv q hq) hhex)
  · intro imageName pref hp hid hstr
    subst hstr
    obtain ⟨A, hA, _, hout⟩ := run_single ho W imageName pref T hp hid hT
    rw [hout, blobLines_output, hA.length_eq, hlen]

/-- C9 at `wide:v1`: five blobs with five digests, five entries and five blob lines. -/
theorem table_key_is_digest_witness :
    ∃ T, (getBlobsByImageTag id (demo []) "wide:v1").result = .ok T ∧
      T.keys.Nodup ∧ (∀ p ∈ wideIndex.blobs, p.1.Hex ∈ T.keys) ∧
      (∀ p ∈ wideIndex.blobs, ∀ q ∈ wideIndex.blobs, p.1 ≠ q.1 → p.1.Hex ≠ q.1.Hex) ∧
      T.length = (wideIndex.blobs.map Prod.fst).dedup.length ∧
      ∀ imageName pref, (demo []).ParseReference imageName = .ok pref →
        pref.Identifier ≠ "" → pref.str = "wide:v1" →
        (blobLines (stdout (run id (demo []) [imageName]).events)).length =
          (wideIndex.blobs.map Prod.fst).dedup.length :=
  table_key_is_digest permOrder_id clientDigits_distinct (demo []) "wide:v1"
    (indexDescriptor (mkIndex wideIndex)) (ManifestData.index wideIndex) rfl
    ⟨mkIndex wideIndex, rfl, wideIndex_reads⟩ (by decide)

/-- C10, as amended: the walk of an index is one level deep.  It calls `crane.Get` once,
on its argument; when every read succeeds it asks the index once for the image of each
child entry, in manifest order and whatever the media type of the entry, and the keys of
the table are the digest hex of the index and the manifest and layer digest hex of the
images so returned; when the index returns an error for a child entry the walk fails. -/
theorem walk_depth_one {order : GoMap → GoMap} (ho : PermOrder order)
    (W : Registry) (name : String) (ref : RemoteDescriptor) (index : ImageIndex)
    (hget : W.Get name = .ok ref) (hidx : ref.ImageIndex = .ok index) :
    walked (getBlobsByImageTag order W name).events = [name] ∧
      (∀ d, index.Reads d →
        ∃ T, (getBlobsByImageTag order W name).result = .ok T ∧
          childFetches (getBlobsByImageTag order W name).events =
            d.children.map (fun c => c.1.Digest) ∧
          ∀ k, k ∈ T.keys ↔
            k = d.digest.Hex ∨
              ∃ c ∈ d.children, k = c.2.digest.Hex ∨ ∃ l ∈ c.2.layers, k = l.1.Hex) ∧
      (∀ dg sz im, index.Digest = .ok dg → index.Size = .ok sz →
        index.IndexManifest = .ok im →
        (∃ e ∈ im.Manifests, ∃ err, index.Image e.Digest = .error err) →
        ∃ err, (getBlobsByImageTag order W name).result = .error err) := by
  refine ⟨(getBlobsByImageTag_quiet order W name).2, ?_, ?_⟩
  · intro d h
    obtain ⟨T, hT, hTab⟩ := getBlobsByImageTag_index ho W name ref index d hget hidx h
    refine ⟨T, by rw [hT], ?_, ?_⟩
    · rw [hT]
      simp only [childFetches_append, childFetches_childEvents]
      simp [childFetches]
    · intro k
      rw [hTab.2.1 k, mem_keys_indexBlobs]
  · intro dg sz im h1 h2 h3 hbad
    obtain ⟨err, herr⟩ := indexLoop_error order index name im.Manifests
      (GoMap.set [] dg.Hex sz) hbad
    exact ⟨err, by simp only [getBlobsByImageTag, hget, hidx, h1, h2, h3, herr]⟩

/-- C10 at `myindex:v1`: one `crane.Get`, one `index.Image` per child entry. -/
theorem walk_depth_one_witness :
    walked (getBlobsByImageTag id (demo [])
        "myindex:v1").events =
        ["myindex:v1"] ∧
      (∀ d, (mkIndex myindex).Reads d →
        ∃ T, (getBlobsByImageTag id (demo [])
            "myindex:v1").result = .ok T ∧
          childFetches (getBlobsByImageTag id (demo [])
            "myindex:v1").events =
            d.children.map (fun c => c.1.Digest) ∧
          ∀ k, k ∈ T.keys ↔
            k = d.digest.Hex ∨
              ∃ c ∈ d.children, k = c.2.digest.Hex ∨ ∃ l ∈ c.2.layers, k = l.1.Hex) ∧
      (∀ dg sz im, (mkIndex myindex).Digest = .ok dg → (mkIndex myindex).Size = .ok sz →
        (mkIndex myindex).IndexManifest = .ok im →
        (∃ e ∈ im.Manifests, ∃ err, (mkIndex myindex).Image e.Digest = .error err) →
        ∃ err, (getBlobsByImageTag id (demo [])
          "myindex:v1").result = .error err) :=
  walk_depth_one permOrder_id (demo []) "myindex:v1"
    (indexDescriptor (mkIndex myindex)) (mkIndex myindex) rfl rfl

/-- C10 fails as stated at `nested:v1`: the only child entry of the index `8888` is the
index `9999`, which the registry serves with two platform images, `2222` and `3333`.  The
walk asks `8888` for the image of `9999`, gets the `linux/amd64` image `2222`, and
returns a table without the entry of `9999` and without the entries of `3333` and its
layer `5555`. -/
theorem walk_depth_one_counterexample :
    (demo []).Get "nested:v1" = .ok (indexDescriptor outerIndex) ∧
      outerIndex.IndexManifest = .ok ⟨[⟨ociIndex, 450, sha "9999", ""⟩]⟩ ∧
      (demo []).Get "nested@sha256:9999" =
        .ok (indexDescriptor (mkIndex innerIndex)) ∧
      (mkIndex innerIndex).Reads innerIndex ∧
      innerIndex.blobs.map (fun p => p.1.Hex) = ["9999", "2222", "4444", "3333", "5555"] ∧
      getBlobsByImageTag id (demo []) "nested:v1" =
        ⟨[.get "nested:v1",
          .slogInfo "get images from image index"
            [("name", "nested:v1")],
          .slogInfo "get blobs from image"
            [("name", "nested:v1"), ("platform", ""),
              ("media", ociIndex)],
          .indexImage (sha "9999")],
         .ok [("8888", 300), ("2222", 400), ("4444", 1000)]⟩ ∧
      GoMap.get? [("8888", 300), ("2222", 400), ("4444", 1000)] "9999" = none ∧
      GoMap.get? [("8888", 300), ("2222", 400), ("4444", 1000)] "3333" = none ∧
      GoMap.get? [("8888", 300), ("2222", 400), ("4444", 1000)] "5555" = none :=
  ⟨rfl, rfl, rfl, innerIndex_reads, by rfl, by rfl, by decide, by decide, by decide⟩

/-- C2, as amended: when every image name resolves, `run` succeeds and prints the table
in range order followed by `total:`, and the total is the exact sum of all sizes of the
final table (one summand per key) wrapped into the range of `int64`; it is the exact sum
whenever that sum is an `int64`. -/
theorem run_total_wraps {order : GoMap → GoMap} (ho : PermOrder order) (W : Registry)
    (names : List String) (T : String → GoMap)
    (h : ∀ n ∈ names, (runBody order W n).result = .ok (T n)) :
    ∃ A, (runLoop order W names []).result = .ok A ∧ A.keys.Nodup ∧
      (run order W names).result = .ok () ∧
      stdout (run order W names).events =
        (order A).map (fun e => Line.blob e.1 e.2) ++ [Line.total (wrap64 A.sum)] ∧
      (IsInt64 A.sum →
        (stdout (run order W names).events).getLast? = some (Line.total A.sum)) := by
  have hl := runLoop_ok order W names T h []
  have hA : (runLoop order W names []).result =
      .ok (names.foldl (fun a n => mapsInsert order a (T n)) []) := by rw [hl]
  have hn : (names.foldl (fun a n => mapsInsert order a (T n)) []).keys.Nodup :=
    (foldl_mapsInsert_tabulates ho names T T
      (fun n hn => Tabulates.self (runBody_nodup order W n (T n) (h n hn))) [] []
      Tabulates.nil).1
  obtain ⟨h1, h2⟩ := run_ok ho W names _ hA
  refine ⟨_, hA, hn, h1, h2, ?_⟩
  intro hfit
  rw [h2, wrap64_of_isInt64 _ hfit]
  simp

/-- C2 at `busybox myindex:v1 app:v1`: the total 710540 is the sum of the nine sizes. -/
theorem run_total_wraps_witness :
    ∃ A, (runLoop id (demo ["latest", "1.36"]) ["busybox", "myindex:v1", "app:v1"] []).result =
        .ok A ∧ A.keys.Nodup ∧
      (run id (demo ["latest", "1.36"]) ["busybox", "myindex:v1", "app:v1"]).result = .ok () ∧
      stdout (run id (demo ["latest", "1.36"]) ["busybox", "myindex:v1", "app:v1"]).events =
        (id A).map (fun e => Line.blob e.1 e.2) ++ [Line.total (wrap64 A.sum)] ∧
      (IsInt64 A.sum →
        (stdout (run id (demo ["latest", "1.36"])
          ["busybox", "myindex:v1", "app:v1"]).events).getLast? = some (Line.total A.sum)) :=
  run_total_wraps permOrder_id (demo ["latest", "1.36"]) ["busybox", "myindex:v1", "app:v1"]
    (fun n => match (runBody id (demo ["latest", "1.36"]) n).result with
      | .ok t => t
      | .error _ => [])
    (by
      intro n hn
      simp only [List.mem_cons, List.mem_singleton, List.not_mem_nil, or_false] at hn
      rcases hn with rfl | rfl | rfl <;> rfl)

/-- C2 fails as stated at `big:v1`: the name resolves, the final table has the sizes
1234, 2^62 and 2^62, whose sum is 9223372036854777042, and the total printed is
-9223372036854774574. -/
theorem run_total_wraps_counterexample :
    (runLoop id (demo []) ["big:v1"] []).result =
        .ok [("f000", 1234), ("f001", 4611686018427387904),
          ("f002", 4611686018427387904)] ∧
      stdout (run id (demo []) ["big:v1"]).events =
        [.blob "f000" 1234, .blob "f001" 4611686018427387904,
          .blob "f002" 4611686018427387904, .total (-9223372036854774574)] ∧
      GoMap.sum [("f000", 1234), ("f001", 4611686018427387904),
          ("f002", 4611686018427387904)] = 9223372036854777042 ∧
      IsInt64 1234 ∧ IsInt64 4611686018427387904 :=
  ⟨by rfl, by rfl, by decide, by decide, by decide⟩

/-- C3, as amended: in a run whose names all resolve, a digest that two of the names
report with the same size is in the merged table exactly once and is printed on exactly
one blob line, with the size that the last name of the run that reports the digest gives
for it; that is the size both names report whenever no name of the run reports the digest
with another size.  Merging the table of the later name into a table that already has the
entry with that size leaves the entry as it is, still exactly once. -/
theorem shared_digest_once {order : GoMap → GoMap} (ho : PermOrder order) (W : Registry)
    (names : List String) (T : String → GoMap) (k : String) (v : Int) (n₁ n₂ : String)
    (h : ∀ n ∈ names, (runBody order W n).result = .ok (T n))
    (h₁ : n₁ ∈ names) (h₂ : n₂ ∈ names)
    (hk₁ : (T n₁).get? k = some v) (hk₂ : (T n₂).get? k = some v) :
    ∃ A v', (runLoop order W names []).result = .ok A ∧
      A.keys.count k = 1 ∧ A.get? k = some v' ∧
      (blobLines (stdout (run order W names).events)).filter (fun e => e.1 = k) =
        [(k, v')] ∧
      (∀ pre n post w, names = pre ++ n :: post → (T n).get? k = some w →
        (∀ m ∈ post, (T m).get? k = none) → v' = w) ∧
      ((∀ n ∈ names, ∀ w, (T n).get? k = some w → w = v) → v' = v) ∧
      ∀ acc : GoMap, acc.keys.Nodup → acc.get? k = some v →
        (mapsInsert order acc (T n₂)).get? k = some v ∧
          (mapsInsert order acc (T n₂)).keys.count k = 1 := by
  have hl := runLoop_ok order W names T h []
  have hTn : ∀ n ∈ names, (T n).keys.Nodup :=
    fun n hn => runBody_nodup order W n (T n) (h n hn)
  have hTab := foldl_mapsInsert_tabulates ho names T T
    (fun n hn => Tabulates.self (hTn n hn)) [] [] Tabulates.nil
  simp only [List.nil_append] at hTab
  have hlast : ∀ pre n post w, names = pre ++ n :: post → (T n).get? k = some w →
      (∀ m ∈ post, (T m).get? k = none) →
      (names.foldl (fun a n => mapsInsert order a (T n)) []).get? k = some w := by
    intro pre n post w hsplit hw hpost
    have hmem : ∀ m ∈ post, m ∈ names := by
      intro m hm
      rw [hsplit]
      exact List.mem_append_right _ (List.mem_cons_of_mem _ hm)
    have hn : n ∈ names := by
      rw [hsplit]
      exact List.mem_append_right _ (List.mem_cons_self _ _)
    rw [hsplit, List.foldl_append, List.foldl_cons,
      get?_foldl_mapsInsert_none ho T k post (fun m hm => hTn m (hmem m hm)) hpost,
      get?_mapsInsert ho _ (T n) (hTn n hn), hw]
  generalize hA : names.foldl (fun a n => mapsInsert order a (T n)) [] = A at hl hTab hlast
  have hres : (runLoop order W names []).result = .ok A := by rw [hl]
  have hmem : k ∈ A.keys := by
    rw [hTab.2.1]
    exact List.mem_map.2
      ⟨(k, v), List.mem_flatMap.2 ⟨n₁, h₁, GoMap.mem_of_get? _ _ _ hk₁⟩, rfl⟩
  obtain ⟨v', hget⟩ : ∃ v', A.get? k = some v' := by
    cases hg : A.get? k with
    | none => exact absurd hmem ((GoMap.get?_eq_none_iff _ _).1 hg)
    | some v' => exact ⟨v', rfl⟩
  refine ⟨A, v', hres, List.count_eq_one_of_mem hTab.1 hmem, hget, ?_, ?_, ?_, ?_⟩
  · rw [(run_ok ho W names A hres).2, blobLines_output]
    have hno : (order A).keys.Nodup := ((ho A).map Prod.fst).nodup_iff.2 hTab.1
    exact GoMap.filter_key _ k v' hno
      ((GoMap.get?_eq_of_perm _ _ hno (ho A) k).trans hget)
  · intro pre n post w hsplit hw hpost
    have := hlast pre n post w hsplit hw hpost
    rw [hget] at this
    exact Option.some.inj this
  · intro hc
    obtain ⟨n, hn, hnv⟩ := List.mem_flatMap.1 (hTab.2.2 k v' hget)
    exact hc n hn v' (GoMap.get?_of_mem _ _ _ (hTn n hn) hnv)
  · intro acc hacc _
    have hg : (mapsInsert order acc (T n₂)).get? k = some v := by
      rw [get?_mapsInsert ho acc (T n₂) (hTn n₂ h₂), hk₂]
    refine ⟨hg, List.count_eq_one_of_mem (nodup_mapsInsert order acc _ hacc) ?_⟩
    by_contra hcon
    rw [(GoMap.get?_eq_none_iff _ _).2 hcon] at hg
    cases hg

/-- C3 at `busybox app:v1`: both images have the layer `bbb` of 700000 bytes, and the
run has one entry and prints one line for it, with 700000. -/
theorem shared_digest_once_witness :
    ∃ (A : GoMap) (v' : Int),
      (runLoop id (demo ["latest", "1.36"]) ["busybox", "app:v1"] []).result = .ok A ∧
      A.keys.count "bbb" = 1 ∧ A.get? "bbb" = some v' ∧
      (blobLines (stdout (run id (demo ["latest", "1.36"])
        ["busybox", "app:v1"]).events)).filter (fun e => e.1 = "bbb") = [("bbb", v')] ∧
      v' = 700000 :=
  match shared_digest_once permOrder_id (demo ["latest", "1.36"]) ["busybox", "app:v1"]
    (fun n => if n = "busybox" then [("aaa", 1234), ("bbb", 700000)]
      else [("ccc", 900), ("bbb", 700000), ("ddd", 4096)])
    "bbb" 700000 "busybox" "app:v1"
    (by
      intro n hn
      simp only [List.mem_cons, List.mem_singleton, List.not_mem_nil, or_false] at hn
      rcases hn with rfl | rfl <;> rfl)
    (by decide) (by decide) (by decide) (by decide) with
  | ⟨A, v', hA, hc, hg, hf, hlast, _, _⟩ =>
    ⟨A, v', hA, hc, hg, hf, hlast ["busybox"] "app:v1" [] 700000 rfl (by decide)
      (fun m hm => absurd hm (List.not_mem_nil m))⟩

/-- C3 fails as stated at `busybox app:v1 odd:v1`: `busybox` and `app:v1` both report the
layer `bbb` with 700000 bytes, `odd:v1` reports it with 5 bytes, and the merged table and
the output have `bbb` once, with 5. -/
theorem shared_digest_once_counterexample :
    (runBody id (demo ["latest", "1.36"]) "busybox").result =
        .ok [("aaa", 1234), ("bbb", 700000)] ∧
      (runBody id (demo ["latest", "1.36"]) "app:v1").result =
        .ok [("ccc", 900), ("bbb", 700000), ("ddd", 4096)] ∧
      (runBody id (demo ["latest", "1.36"]) "odd:v1").result =
        .ok [("eee", 800), ("bbb", 5)] ∧
      (runLoop id (demo ["latest", "1.36"]) ["busybox", "app:v1", "odd:v1"] []).result =
        .ok [("aaa", 1234), ("bbb", 5), ("ccc", 900), ("ddd", 4096), ("eee", 800)] ∧
      (blobLines (stdout (run id (demo ["latest", "1.36"])
        ["busybox", "app:v1", "odd:v1"]).events)).filter (fun e => e.1 = "bbb") =
        [("bbb", 5)] :=
  ⟨by rfl, by rfl, by rfl, by rfl, by decide⟩

/-- C4: when the names before `bad` resolve and `bad` fails, `run` returns that error,
writes nothing to standard output, and its events are those of resolving the names up to
and including `bad`: nothing is done for the names after it. -/
theorem run_fail_fast (order : GoMap → GoMap) (W : Registry) (pre : List String)
    (bad : String) (post : List String) (err : Error) (T : String → GoMap)
    (h : ∀ n ∈ pre, (runBody order W n).result = .ok (T n))
    (hbad : (runBody order W bad).result = .error err) :
    (run order W (pre ++ bad :: post)).result = .error err ∧
      stdout (run order W (pre ++ bad :: post)).events = [] ∧
      (run order W (pre ++ bad :: post)).events =
        (pre ++ [bad]).flatMap (fun n => (runBody order W n).events) := by
  have hl := runLoop_fail order W pre bad post err T h hbad []
  have hr : run order W (pre ++ bad :: post) =
      ⟨(pre ++ [bad]).flatMap (fun n => (runBody order W n).events), .error err⟩ := by
    simp only [run, hl]
  rw [hr]
  exact ⟨rfl, stdout_flatMap_runBody order W _, rfl⟩

/-- C4 at `busybox old:v1 app:v1`: the second name is neither an index nor an image; the
run fails without output and `app:v1` is never parsed or fetched. -/
theorem run_fail_fast_witness :
    (run id (demo ["latest", "1.36"]) (["busybox"] ++ "old:v1" :: ["app:v1"])).result =
        .error ("manifest is not image and image index but " ++
          "'application/vnd.docker.distribution.manifest.v1+json'") ∧
      stdout (run id (demo ["latest", "1.36"])
        (["busybox"] ++ "old:v1" :: ["app:v1"])).events = [] ∧
      (run id (demo ["latest", "1.36"]) (["busybox"] ++ "old:v1" :: ["app:v1"])).events =
        (["busybox"] ++ ["old:v1"]).flatMap
          (fun n => (runBody id (demo ["latest", "1.36"]) n).events) :=
  run_fail_fast id (demo ["latest", "1.36"]) ["busybox"] "old:v1" ["app:v1"] _
    (fun _ => [("aaa", 1234), ("bbb", 700000)])
    (by
      intro n hn
      rw [List.mem_singleton.1 hn]
      rfl)
    (by rfl)

/-- C5: for an image name that parses to a reference without tag or digest, `run` lists
the tags of the repository and walks `name:tag` for the listed tags, in tag-list order, and
nothing else; when no tag `latest` is listed, `name:latest` is not walked; when every tag
resolves, the table of the name is the merge, in tag-list order, of the tables of
`name:tag`, and the loop of `run` merges that table into its accumulator. -/
theorem unqualified_walks_all_tags (order : GoMap → GoMap) (W : Registry)
    (imageName : String) (pref : Reference) (tags : List String)
    (hp : W.ParseReference imageName = .ok pref) (hid : pref.Identifier = "")
    (htags : W.ListTags imageName = .ok tags) :
    (∃ rest, (runBody order W imageName).events =
        .parseReference imageName :: .listTags imageName :: rest) ∧
      walked (runBody order W imageName).events <+:
        tags.map (fun tag => imageName ++ ":" ++ tag) ∧
      ("latest" ∉ tags →
        imageName ++ ":" ++ "latest" ∉ walked (runBody order W imageName).events) ∧
      ∀ T : String → GoMap,
        (∀ tag ∈ tags,
          (getBlobsByImageTag order W (imageName ++ ":" ++ tag)).result = .ok (T tag)) →
        (runBody order W imageName).result =
            .ok (tags.foldl (fun a tag => mapsInsert order a (T tag)) []) ∧
          walked (runBody order W imageName).events =
            tags.map (fun tag => imageName ++ ":" ++ tag) ∧
          ∀ acc, (runLoop order W [imageName] acc).result =
            .ok (mapsInsert order acc
              (tags.foldl (fun a tag => mapsInsert order a (T tag)) [])) := by
  have hbody : runBody order W imageName =
      ⟨.parseReference imageName :: .listTags imageName ::
        (tagsLoop order W imageName tags []).events,
        (tagsLoop order W imageName tags []).result⟩ := by
    simp only [runBody, hp, hid, if_true, getBlobsByNameForAllTags, htags]
  have hw : walked (runBody order W imageName).events =
      walked (tagsLoop order W imageName tags []).events := by
    rw [hbody]
    simp [walked]
  have hpre := (tagsLoop_quiet order W imageName tags []).2
  refine ⟨⟨_, by rw [hbody]⟩, hw ▸ hpre, ?_, ?_⟩
  · intro hlatest hmem
    rw [hw] at hmem
    obtain ⟨tag, htag, heq⟩ := List.mem_map.1 (hpre.subset hmem)
    have : tag = "latest" := by
      have h1 : (imageName ++ ":") ++ tag = (imageName ++ ":") ++ "latest" := heq
      exact string_append_cancel _ _ _ h1
    exact hlatest (this ▸ htag)
  · intro T hT
    have hl := tagsLoop_ok order W imageName tags T hT []
    have hres : (runBody order W imageName).result =
        .ok (tags.foldl (fun a tag => mapsInsert order a (T tag)) []) := by
      rw [hbody, hl]
    refine ⟨hres, ?_, ?_⟩
    · rw [hw, hl]
      exact walked_flatMap_tags order W imageName tags
    · intro acc
      simp only [runLoop, hres]

/-- C5 at `busybox`, whose tags are `1.36` and `stable`: the two references walked are
`busybox:1.36` and `busybox:stable`, and not `busybox:latest`. -/
theorem unqualified_walks_all_tags_witness :
    (∃ rest, (runBody id (demo ["1.36", "stable"]) "busybox").events =
        .parseReference "busybox" :: .listTags "busybox" :: rest) ∧
      walked (runBody id (demo ["1.36", "stable"]) "busybox").events <+:
        ["1.36", "stable"].map (fun tag => "busybox" ++ ":" ++ tag) ∧
      ("latest" ∉ ["1.36", "stable"] →
        "busybox" ++ ":" ++ "latest" ∉
          walked (runBody id (demo ["1.36", "stable"]) "busybox").events) ∧
      ∀ T : String → GoMap,
        (∀ tag ∈ ["1.36", "stable"],
          (getBlobsByImageTag id (demo ["1.36", "stable"]) ("busybox" ++ ":" ++ tag)).result =
            .ok (T tag)) →
        (runBody id (demo ["1.36", "stable"]) "busybox").result =
            .ok (["1.36", "stable"].foldl (fun a tag => mapsInsert id a (T tag)) []) ∧
          walked (runBody id (demo ["1.36", "stable"]) "busybox").events =
            ["1.36", "stable"].map (fun tag => "busybox" ++ ":" ++ tag) ∧
          ∀ acc, (runLoop id (demo ["1.36", "stable"]) ["busybox"] acc).result =
            .ok (mapsInsert id acc
              (["1.36", "stable"].foldl (fun a tag => mapsInsert id a (T tag)) [])) :=
  unqualified_walks_all_tags id (demo ["1.36", "stable"]) "busybox"
    ⟨"", "busybox"⟩ ["1.36", "stable"] rfl rfl rfl

/-- C7: for an unqualified repository with a non-empty tag list all of whose tags resolve
to the identical image (same manifest digest, manifest size and layers), the table of
`getBlobsByNameForAllTags` is the table of any single one of the tags: the same entries
and the same size under every key, whatever the number and order of the tags.  For
`busybox` with the tags `latest` and `1.36`, in either order, both pointing to the
manifest `aaa` of 1234 bytes with the layer `bbb` of 700000 bytes, the table is
`aaa: 1234, bbb: 700000` and the run prints these two lines and the total 701234. -/
theorem all_tags_identical_image :
    (∀ (order : GoMap → GoMap) (W : Registry) (name : String) (tags : List String)
        (d : ImageData), PermOrder order → tags ≠ [] → W.ListTags name = .ok tags →
        (∀ tag ∈ tags, ∃ ref e image, W.Get (name ++ ":" ++ tag) = .ok ref ∧
          ref.ImageIndex = .error e ∧ ref.Image = .ok image ∧ image.Reads d) →
        ∃ A, (getBlobsByNameForAllTags order W name).result = .ok A ∧
          ∀ tag ∈ tags, ∃ T,
            (getBlobsByImageTag order W (name ++ ":" ++ tag)).result = .ok T ∧
              A.Perm T ∧ ∀ k, A.get? k = T.get? k) ∧
      (∀ (order : GoMap → GoMap) (tags : List String), PermOrder order →
        tags = ["latest", "1.36"] ∨ tags = ["1.36", "latest"] →
        ∃ A, (getBlobsByNameForAllTags order (demo tags) "busybox").result = .ok A ∧
          A.Perm [("aaa", 1234), ("bbb", 700000)] ∧
          ∃ P : GoMap, P.Perm [("aaa", 1234), ("bbb", 700000)] ∧
            stdout (run order (demo tags) ["busybox"]).events =
              P.map (fun e => Line.blob e.1 e.2) ++ [Line.total 701234]) := by
  have general : ∀ (order : GoMap → GoMap) (W : Registry) (name : String)
      (tags : List String) (d : ImageData), PermOrder order → tags ≠ [] →
      W.ListTags name = .ok tags →
      (∀ tag ∈ tags, ∃ ref e image, W.Get (name ++ ":" ++ tag) = .ok ref ∧
        ref.ImageIndex = .error e ∧ ref.Image = .ok image ∧ image.Reads d) →
      ∃ A, (getBlobsByNameForAllTags order W name).result = .ok A ∧
        A.Perm ((d.blobs.map entry).foldl (fun m kv => GoMap.set m kv.1 kv.2) []) ∧
        ∀ tag ∈ tags, ∃ T,
          (getBlobsByImageTag order W (name ++ ":" ++ tag)).result = .ok T ∧
            A.Perm T ∧ ∀ k, A.get? k = T.get? k := by
    intro order W name tags d ho hne htags h
    have hT : ∀ tag ∈ tags, (getBlobsByImageTag order W (name ++ ":" ++ tag)).result =
        .ok ((d.blobs.map entry).foldl (fun m kv => GoMap.set m kv.1 kv.2) []) := by
      intro tag htag
      obtain ⟨ref, e, image, hget, hidx, himg, hr⟩ := h tag htag
      rw [getBlobsByImageTag_image order W _ ref e image d hget hidx himg hr]
    obtain ⟨A, hA, hperm, hget⟩ := allTags_same_table ho W name tags _ hne htags hT
    exact ⟨A, hA, hperm, fun tag htag => ⟨_, hT tag htag, hperm, hget⟩⟩
  refine ⟨?_, ?_⟩
  · intro order W name tags d ho hne htags h
    obtain ⟨A, hA, _, hall⟩ := general order W name tags d ho hne htags h
    exact ⟨A, hA, hall⟩
  · intro order tags ho htg
    have hne : tags ≠ [] := by rcases htg with rfl | rfl <;> simp
    have hreads : ∀ tag ∈ tags, ∃ ref e image,
        (demo tags).Get ("busybox" ++ ":" ++ tag) = .ok ref ∧
          ref.ImageIndex = .error e ∧ ref.Image = .ok image ∧ image.Reads busyboxImage := by
      intro tag htag
      have : tag = "latest" ∨ tag = "1.36" := by
        rcases htg with rfl | rfl <;> simp at htag <;> tauto
      rcases this with rfl | rfl <;>
        exact ⟨imageDescriptor busyboxImage, _, _, rfl, rfl, rfl, mkImage_reads _⟩
    obtain ⟨A, hA, hperm, _⟩ := general order (demo tags) "busybox" tags busyboxImage ho hne
      rfl hreads
    have hperm' : A.Perm [("aaa", 1234), ("bbb", 700000)] := hperm
    refine ⟨A, hA, hperm', ?_⟩
    have hbody : (runBody order (demo tags) "busybox").result = .ok A := by
      have : (runBody order (demo tags) "busybox").result =
          (getBlobsByNameForAllTags order (demo tags) "busybox").result := rfl
      rw [this, hA]
    obtain ⟨P, hP, _, hout⟩ := run_one ho (demo tags) "busybox" A hbody
    refine ⟨P, hP.trans hperm', ?_⟩
    rw [hout, GoMap.sum_eq_of_perm _ _ hperm']
    rfl

/-- C7 at `busybox` with the tags `latest`, `1.36` and `stable`, all three pointing to the
same image. -/
theorem all_tags_identical_image_witness :
    ∃ A, (getBlobsByNameForAllTags id (demo ["latest", "1.36", "stable"]) "busybox").result =
        .ok A ∧
      ∀ tag ∈ ["latest", "1.36", "stable"], ∃ T,
        (getBlobsByImageTag id (demo ["latest", "1.36", "stable"])
          ("busybox" ++ ":" ++ tag)).result = .ok T ∧
          A.Perm T ∧ ∀ k, A.get? k = T.get? k :=
  all_tags_identical_image.1 id (demo ["latest", "1.36", "stable"]) "busybox"
    ["latest", "1.36", "stable"] busyboxImage permOrder_id (by simp) rfl
    (by
      intro tag htag
      simp only [List.mem_cons, List.mem_singleton, List.not_mem_nil, or_false] at htag
      rcases htag with rfl | rfl | rfl <;>
        exact ⟨imageDescriptor busyboxImage, _, _, rfl, rfl, rfl, mkImage_reads _⟩)

/-- C8, as amended: a repository whose tag list is empty resolves without error to the
empty table, after the one call that lists its tags; an index whose manifest list is empty
resolves without error to a table with exactly one entry, the digest hex and size of the
index itself. -/
theorem empty_tags_and_empty_index :
    (∀ (order : GoMap → GoMap) (W : Registry) (name : String),
        W.ListTags name = .ok [] →
        getBlobsByNameForAllTags order W name = ⟨[.listTags name], .ok []⟩) ∧
      (∀ (order : GoMap → GoMap) (W : Registry) (name : String) (ref : RemoteDescriptor)
        (index : ImageIndex) (dg : Hash) (sz : Int) (im : IndexManifest),
        W.Get name = .ok ref → ref.ImageIndex = .ok index → index.Digest = .ok dg →
        index.Size = .ok sz → index.IndexManifest = .ok im → im.Manifests = [] →
        getBlobsByImageTag order W name =
          ⟨[.get name, .slogInfo "get images from image index" [("name", name)]],
            .ok [(dg.Hex, sz)]⟩) := by
  refine ⟨?_, ?_⟩
  · intro order W name h
    simp only [getBlobsByNameForAllTags, h, tagsLoop]
  · intro order W name ref index dg sz im h1 h2 h3 h4 h5 h6
    simp only [getBlobsByImageTag, h1, h2, h3, h4, h5, h6, indexLoop, GoMap.set,
      List.append_nil]

/-- C8 at the repository `norepo`, which has no tag, and at the index `empty:v1`, which
has no child entry: an empty table, and a table with the entry of the index. -/
theorem empty_tags_and_empty_index_witness :
    getBlobsByNameForAllTags id (demo []) "norepo" = ⟨[.listTags "norepo"], .ok []⟩ ∧
      stdout (run id (demo []) ["norepo"]).events = [.total 0] ∧
      getBlobsByImageTag id (demo []) "empty:v1" =
        ⟨[.get "empty:v1",
          .slogInfo "get images from image index"
            [("name", "empty:v1")]],
          .ok [((sha "eeee").Hex, 120)]⟩ :=
  ⟨empty_tags_and_empty_index.1 id (demo []) "norepo" rfl, by rfl,
    empty_tags_and_empty_index.2 id (demo []) "empty:v1"
      (indexDescriptor (mkIndex emptyIndex)) (mkIndex emptyIndex) (sha "eeee") 120 ⟨[]⟩
      rfl rfl rfl rfl rfl rfl⟩

/-- C8 fails as stated at `empty:v1`: the manifest list of the index `eeee` is empty, and
the index resolves to a table with one entry, which the run prints. -/
theorem empty_tags_and_empty_index_counterexample :
    (demo []).Get "empty:v1" =
        .ok (indexDescriptor (mkIndex emptyIndex)) ∧
      (mkIndex emptyIndex).IndexManifest = .ok ⟨[]⟩ ∧
      (getBlobsByImageTag id (demo []) "empty:v1").result =
        .ok [("eeee", 120)] ∧
      ([("eeee", 120)] : GoMap) ≠ [] ∧
      stdout (run id (demo []) ["empty:v1"]).events = [.blob "eeee" 120, .total 120] :=
  ⟨rfl, rfl, by rfl, by decide, by rfl⟩

end CalcImageSize
